import Mathlib

/-!
Verification development for the khmer_segmenter repository.

The Python sources (khmer_segmenter/normalization.py, rule_engine.py,
viterbi.py) are shallowly embedded below.  Strings are modelled as
List Char (Python indexes strings by code point), costs as ℚ, the
float value inf as the none case of Option, and fallible code as
Option-returning functions.  The function -math.log10 that produces
the cost values is kept abstract as a parameter L : ℚ → ℚ, since its
output is irrational in general; every statement about costs is
proved for an arbitrary such L (injective where an inequality of
costs must be shown, as -log10 is injective on positive rationals).
The unicodedata.category test used by _is_separator is likewise kept
abstract as a parameter cat : Char → Bool meaning "the general
category of the character starts with P, S or Z"; concrete
instantiations used in concrete evaluations model the standard table
on the characters that occur in those inputs.
-/

namespace KhmerSeg

/-- Rational addition in a form the kernel can evaluate (Rat.add is
irreducible).  Agrees with + by qadd_eq; used wherever the Python code
adds two float costs. -/
def qadd (a b : ℚ) : ℚ := mkRat (a.num * b.den + b.num * a.den) (a.den * b.den)

/-- Rational division in a form the kernel can evaluate (Rat.div is
irreducible).  Agrees with / by qdiv_eq; used wherever the Python code
divides two floats. -/
def qdiv (a b : ℚ) : ℚ := Rat.divInt (a.num * b.den) (a.den * b.num)

/-- U+17D2, the Khmer subscript joiner COENG. -/
def coeng : Char := Char.ofNat 0x17D2

/-- U+179A, the Khmer letter RO. -/
def ro : Char := Char.ofNat 0x179A

/-- U+200B, zero width space, stripped by segment after normalization. -/
def zws : Char := Char.ofNat 0x200B

/-- Base consonant range 0x1780..0x17A2 (viterbi.py _is_valid_single_base_char,
normalization.py CONSONANTS). -/
def isConsonant (c : Char) : Bool := 0x1780 ≤ c.toNat && c.toNat ≤ 0x17A2

/-- Independent vowel range 0x17A3..0x17B3. -/
def isIndepVowel (c : Char) : Bool := 0x17A3 ≤ c.toNat && c.toNat ≤ 0x17B3

/-- viterbi.py _is_valid_single_base_char: consonant or independent vowel. -/
def is_valid_single_base_char (c : Char) : Bool := isConsonant c || isIndepVowel c

/-- Dependent vowel range 0x17B6..0x17C5 (the repair-gate test in segment). -/
def isDepVowel (c : Char) : Bool := 0x17B6 ≤ c.toNat && c.toNat ≤ 0x17C5

/-- viterbi.py _is_khmer_char. -/
def is_khmer_char (c : Char) : Bool :=
  (0x1780 ≤ c.toNat && c.toNat ≤ 0x17FF) || (0x19E0 ≤ c.toNat && c.toNat ≤ 0x19FF)

/-- viterbi.py _is_digit on a single character: ASCII 0-9 or Khmer 0-9. -/
def isDigitChar (c : Char) : Bool :=
  (0x30 ≤ c.toNat && c.toNat ≤ 0x39) || (0x17E0 ≤ c.toNat && c.toNat ≤ 0x17E9)

/-- viterbi.py _is_digit on a segment: a single char is tested directly,
otherwise all characters must be digits (all of the empty string is true,
as in Python). -/
def is_digit_seg (s : List Char) : Bool := s.all isDigitChar

/-- viterbi.py _is_currency_symbol. -/
def is_currency_symbol (c : Char) : Bool :=
  c == '$' || c == Char.ofNat 0x17DB || c == Char.ofNat 0x20AC ||
  c == Char.ofNat 0xA3 || c == Char.ofNat 0xA5

/-- viterbi.py _is_separator on a single character.  cat c models
"unicodedata.category(c) starts with P, S or Z". -/
def is_separator (cat : Char → Bool) (c : Char) : Bool :=
  (0x17D4 ≤ c.toNat && c.toNat ≤ 0x17DA) || c.toNat == 0x17DB || cat c

/-- _is_separator applied to a whole segment, as the rule engine and the
unknown collapser do: ord() raises on a string whose length is not 1 and
the except branch returns False, so only one-character segments can be
separators. -/
def is_separator_seg (cat : Char → Bool) (s : List Char) : Bool :=
  match s with
  | [c] => is_separator cat c
  | _ => false

/-- Character at index i, defaulting to NUL out of range (the Python code
never indexes out of range on the paths modelled here). -/
def chAt (t : List Char) (i : ℕ) : Char := t.getD i (Char.ofNat 0)

/-- The inner loop of viterbi.py _get_khmer_cluster_length, scanning the
characters after the initial base: COENG plus a consonant is absorbed as a
two code point subscript unit, dependent vowels and signs
(0x17B6..0x17D1, 0x17D3, 0x17DD) as one, anything else ends the cluster,
as does a COENG not followed by a consonant.  Returns the number of
characters absorbed from the given suffix. -/
def clusterScan : List Char → ℕ
  | [] => 0
  | [c] =>
    if c.toNat = 0x17D2 then 0
    else if (0x17B6 ≤ c.toNat && c.toNat ≤ 0x17D1) || c.toNat == 0x17D3
            || c.toNat == 0x17DD then 1
    else 0
  | c :: d :: rest2 =>
    if c.toNat = 0x17D2 then
      if isConsonant d then 2 + clusterScan rest2 else 0
    else if (0x17B6 ≤ c.toNat && c.toNat ≤ 0x17D1) || c.toNat == 0x17D3
            || c.toNat == 0x17DD then
      1 + clusterScan (d :: rest2)
    else 0

/-- viterbi.py _get_khmer_cluster_length. -/
def cluster_length (t : List Char) (i : ℕ) : ℕ :=
  if t.length ≤ i then 0
  else if ¬ (0x1780 ≤ (chAt t i).toNat ∧ (chAt t i).toNat ≤ 0x17B3) then 1
  else 1 + clusterScan (t.drop (i + 1))

/-- The loop of viterbi.py _get_number_length after the first digit:
digits are absorbed one at a time and a comma, dot or space is absorbed
together with the digit that must immediately follow it. -/
def numberScan : List Char → ℕ
  | [] => 0
  | [c] => if isDigitChar c then 1 else 0
  | c :: d :: rest2 =>
    if isDigitChar c then 1 + numberScan (d :: rest2)
    else if c == ',' || c == '.' || c == ' ' then
      if isDigitChar d then 2 + numberScan rest2 else 0
    else 0

/-- viterbi.py _get_number_length: zero unless the first character is a
digit. -/
def number_length (t : List Char) (i : ℕ) : ℕ :=
  if i < t.length ∧ isDigitChar (chAt t i) then 1 + numberScan (t.drop (i + 1))
  else 0

/-- One step bound for the loop of viterbi.py _get_acronym_length: from
position i, if a base-range character starts a cluster whose following
character is a dot, the loop advances past the cluster and the dot.  The
fuel argument dominates the number of iterations; fuel = t.length is
always enough because every iteration advances the position. -/
def acronymGo (t : List Char) : ℕ → ℕ → ℕ
  | 0, i => i
  | fuel + 1, i =>
    if i < t.length ∧ (0x1780 ≤ (chAt t i).toNat ∧ (chAt t i).toNat ≤ 0x17B3) then
      if 0 < cluster_length t i ∧ i + cluster_length t i < t.length
          ∧ chAt t (i + cluster_length t i) = '.' then
        acronymGo t fuel (i + cluster_length t i + 1)
      else i
    else i

/-- viterbi.py _get_acronym_length. -/
def acronym_length (t : List Char) (i : ℕ) : ℕ := acronymGo t t.length i - i

/-- viterbi.py _is_acronym_start. -/
def is_acronym_start (t : List Char) (i : ℕ) : Bool :=
  if t.length ≤ i + 1 then false
  else if ¬ (0x1780 ≤ (chAt t i).toNat ∧ (chAt t i).toNat ≤ 0x17B3) then false
  else if cluster_length t i = 0 then false
  else decide (i + cluster_length t i < t.length)
    && (chAt t (i + cluster_length t i) == '.')

/-! ## Normalizer (normalization.py) -/

/-- Character classes of normalization.py _get_char_type.  CONSONANTS and
INDEP_VOWELS both map to BASE; COENG is tested before the SIGNS range
(which contains 0x17D2); 0x17DD is also a SIGN. -/
inductive CType | base | coengT | vowel | sign | other
deriving DecidableEq

/-- normalization.py _get_char_type. -/
def get_char_type (c : Char) : CType :=
  if (0x1780 ≤ c.toNat && c.toNat ≤ 0x17A2) || (0x17A3 ≤ c.toNat && c.toNat ≤ 0x17B3)
    then .base
  else if c.toNat = 0x17D2 then .coengT
  else if 0x17B6 ≤ c.toNat && c.toNat ≤ 0x17C5 then .vowel
  else if (0x17C6 ≤ c.toNat && c.toNat ≤ 0x17D3) || c.toNat = 0x17DD then .sign
  else .other

/-- Python str.replace for a two character pattern and a one character
replacement: all non-overlapping occurrences, scanned left to right. -/
def replace2 (a b r : Char) : List Char → List Char
  | [] => []
  | [c] => [c]
  | c :: d :: rest =>
    if c = a ∧ d = b then r :: replace2 a b r rest
    else c :: replace2 a b r (d :: rest)

/-- normalization.py _sort_cluster sort_key.  A cluster part is either a
one character string or a COENG plus consonant pair.  Non-Ro subscripts
get 1, a stray lone COENG 1.5, Ro subscripts 2, dependent vowels 3,
signs 4, anything else 5. -/
def sort_key (item : List Char) : ℚ :=
  match item with
  | [] => 5
  | c :: _ =>
    if c = coeng then
      if item.length = 2 then (if chAt item 1 = ro then 2 else 1) else mkRat 3 2
    else
      if 0x17B6 ≤ c.toNat ∧ c.toNat ≤ 0x17C5 then 3
      else if (0x17C6 ≤ c.toNat ∧ c.toNat ≤ 0x17D3) ∨ c.toNat = 0x17DD then 4
      else 5

/-- Stable insertion into a key-sorted list: x is placed before the first
element whose key is not below x's key, i.e. after every earlier element
of equal key, which is exactly the stable order of Python sorted. -/
def insertByKey (x : List Char) : List (List Char) → List (List Char)
  | [] => [x]
  | y :: ys => if sort_key x ≤ sort_key y then x :: y :: ys else y :: insertByKey x ys

/-- Stable sort by sort_key (insertion sort; agrees with Python sorted,
which is also stable). -/
def sortByKey : List (List Char) → List (List Char)
  | [] => []
  | x :: xs => insertByKey x (sortByKey xs)

/-- normalization.py _sort_cluster: the first part stays put, the
remaining parts are stably sorted by sort_key, and the parts are joined
back into a string. -/
def sort_cluster (parts : List (List Char)) : List Char :=
  match parts with
  | [] => []
  | base :: modifiers => base ++ (sortByKey modifiers).flatten

/-- Flushing the open cluster: an empty cluster emits nothing, a
non-empty one is sorted and appended to the output. -/
def flushC (res : List (List Char)) (cur : List (List Char)) : List (List Char) :=
  if cur.isEmpty then res else res ++ [sort_cluster cur]

/-- The cluster-building loop of normalization.py normalize.  cur is the
current cluster (a list of parts), res the emitted output pieces.  BASE
flushes the current cluster and opens a new one; COENG absorbs a
following BASE as a subscript unit and otherwise stays a lone part
(including at end of input); VOWEL and SIGN join the open cluster or are
emitted verbatim when no cluster is open; anything else flushes and is
emitted verbatim.  The one character case inlines the final flush of the
loop, which is the only way the loop can end there. -/
def norm_go : List Char → List (List Char) → List (List Char) → List (List Char)
  | [], cur, res => flushC res cur
  | [c], cur, res =>
    match get_char_type c with
    | .base => flushC res cur ++ [sort_cluster [[c]]]
    | .coengT => res ++ [sort_cluster (cur ++ [[c]])]
    | .vowel => if cur.isEmpty then res ++ [[c]] else res ++ [sort_cluster (cur ++ [[c]])]
    | .sign => if cur.isEmpty then res ++ [[c]] else res ++ [sort_cluster (cur ++ [[c]])]
    | .other => flushC res cur ++ [[c]]
  | c :: d :: rest2, cur, res =>
    match get_char_type c with
    | .base => norm_go (d :: rest2) [[c]] (flushC res cur)
    | .coengT =>
      if get_char_type d = .base then norm_go rest2 (cur ++ [[c, d]]) res
      else norm_go (d :: rest2) (cur ++ [[c]]) res
    | .vowel =>
      if cur.isEmpty then norm_go (d :: rest2) cur (res ++ [[c]])
      else norm_go (d :: rest2) (cur ++ [[c]]) res
    | .sign =>
      if cur.isEmpty then norm_go (d :: rest2) cur (res ++ [[c]])
      else norm_go (d :: rest2) (cur ++ [[c]]) res
    | .other =>
      norm_go (d :: rest2) [] (flushC res cur ++ [[c]])

/-- normalization.py normalize: merge the split composite vowels
(U+17C1 U+17B8 to U+17BE, then U+17C1 U+17B6 to U+17C4), then rebuild
the text cluster by cluster with the modifiers of each cluster stably
sorted.  Empty input returns empty. -/
def normalize (s : List Char) : List Char :=
  let s1 := replace2 (Char.ofNat 0x17C1) (Char.ofNat 0x17B8) (Char.ofNat 0x17BE) s
  let s2 := replace2 (Char.ofNat 0x17C1) (Char.ofNat 0x17B6) (Char.ofNat 0x17C4) s1
  (norm_go s2 [] []).flatten

/-! ## Variants, dictionary and cost model (viterbi.py) -/

/-- U+178F, Khmer letter TA. -/
def taChar : Char := Char.ofNat 0x178F

/-- U+178A, Khmer letter DA. -/
def daChar : Char := Char.ofNat 0x178A

/-- Python substring test for a two character pattern. -/
def containsPair (a b : Char) : List Char → Bool
  | [] => false
  | [_] => false
  | c :: d :: rest => (c = a ∧ d = b) || containsPair a b (d :: rest)

/-- Python str.replace for a two character pattern and a two character
replacement: all non-overlapping occurrences, scanned left to right. -/
def replacePair (a b a2 b2 : Char) : List Char → List Char
  | [] => []
  | [c] => [c]
  | c :: d :: rest =>
    if c = a ∧ d = b then a2 :: b2 :: replacePair a b a2 b2 rest
    else c :: replacePair a b a2 b2 (d :: rest)

/-- re.search for the pattern (COENG RO)(COENG [^RO]) of
_generate_variants: a Coeng Ro subscript immediately followed by another
Coeng subscript unit. -/
def hasRoFirst : List Char → Bool
  | c1 :: c2 :: c3 :: c4 :: rest =>
    (c1 = coeng ∧ c2 = ro ∧ c3 = coeng ∧ c4 ≠ ro) ||
    hasRoFirst (c2 :: c3 :: c4 :: rest)
  | _ => false

/-- re.sub replacing every non-overlapping occurrence of
(COENG RO)(COENG [^RO]) with the groups swapped, scanning left to
right. -/
def subRoFirst : List Char → List Char
  | c1 :: c2 :: c3 :: c4 :: rest =>
    if c1 = coeng ∧ c2 = ro ∧ c3 = coeng ∧ c4 ≠ ro then
      c3 :: c4 :: c1 :: c2 :: subRoFirst rest
    else c1 :: subRoFirst (c2 :: c3 :: c4 :: rest)
  | l => l

/-- re.search for the pattern (COENG [^RO])(COENG RO). -/
def hasRoSecond : List Char → Bool
  | c1 :: c2 :: c3 :: c4 :: rest =>
    (c1 = coeng ∧ c2 ≠ ro ∧ c3 = coeng ∧ c4 = ro) ||
    hasRoSecond (c2 :: c3 :: c4 :: rest)
  | _ => false

/-- re.sub replacing every non-overlapping occurrence of
(COENG [^RO])(COENG RO) with the groups swapped. -/
def subRoSecond : List Char → List Char
  | c1 :: c2 :: c3 :: c4 :: rest =>
    if c1 = coeng ∧ c2 ≠ ro ∧ c3 = coeng ∧ c4 = ro then
      c3 :: c4 :: c1 :: c2 :: subRoSecond rest
    else c1 :: subRoSecond (c2 :: c3 :: c4 :: rest)
  | l => l

/-- viterbi.py _generate_variants.  The Python function returns a set;
this list may contain duplicates, which makes no difference anywhere the
result is used (set insertion in _load_dictionary, guarded insertion of
one identical value per primary in _load_frequencies). -/
def generate_variants (w : List Char) : List (List Char) :=
  let taDa :=
    (if containsPair coeng taChar w then [replacePair coeng taChar coeng daChar w] else [])
    ++ (if containsPair coeng daChar w then [replacePair coeng daChar coeng taChar w] else [])
  let base_set := w :: taDa
  taDa ++ base_set.foldr (fun u acc =>
    (if hasRoFirst u then [subRoFirst u] else [])
    ++ (if hasRoSecond u then [subRoSecond u] else []) ++ acc) []

/-- The segmenter state: word set, explicit word costs, the two cost
scalars and the bound for the dictionary loop of segment.  Word
membership and cost lookup are by list membership and association list
lookup (the Python sets and dicts). -/
structure Seg where
  words : List (List Char)
  word_costs : List (List Char × ℚ)
  default_cost : ℚ
  unknown_cost : ℚ
  max_word_length : ℕ

/-- The freshly constructed state before any loading: empty dictionary,
default_cost 10.0, unknown_cost 20.0 (viterbi.py __init__). -/
def initSeg : Seg :=
  { words := [], word_costs := [], default_cost := 10, unknown_cost := 20
    max_word_length := 0 }

/-- Association list lookup (Python dict lookup). -/
def alookup (w : List Char) : List (List Char × ℚ) → Option ℚ
  | [] => none
  | p :: rest => if p.1 = w then some p.2 else alookup w rest

/-- viterbi.py get_word_cost: the explicit cost if there is one, else
default_cost for dictionary words, else unknown_cost. -/
def get_word_cost (S : Seg) (w : List Char) : ℚ :=
  match alookup w S.word_costs with
  | some c => c
  | none => if w ∈ S.words then S.default_cost else S.unknown_cost

/-- Python dict overwrite-or-append insertion (an existing key keeps its
position and gets the new value; a new key is appended). -/
def dinsert (k : List Char) (v : ℚ) : List (List Char × ℚ) → List (List Char × ℚ)
  | [] => [(k, v)]
  | p :: rest => if p.1 = k then (k, v) :: rest else p :: dinsert k v rest

/-- One iteration of the effective_counts loop of _load_frequencies: the
primary word is assigned max(count, 5.0) unconditionally, then each of
its variants is assigned the same value only if not yet present. -/
def ec_step (acc : List (List Char × ℚ)) (entry : List Char × ℚ) : List (List Char × ℚ) :=
  let eff := max entry.2 5
  (generate_variants entry.1).foldl
    (fun a v => if (alookup v a).isSome then a else a ++ [(v, eff)])
    (dinsert entry.1 eff acc)

/-- The effective_counts table of _load_frequencies, built over the
frequency data in iteration order (Python dicts iterate in insertion
order). -/
def effective_counts (data : List (List Char × ℚ)) : List (List Char × ℚ) :=
  data.foldl ec_step []

/-- total_tokens of _load_frequencies: the effective counts of the
primary words only are summed. -/
def total_tokens (data : List (List Char × ℚ)) : ℚ :=
  data.foldl (fun a p => qadd a (max p.2 5)) 0

/-- viterbi.py _load_frequencies.  L stands for the function
fun x => -log10 x applied to the rational value of its float argument;
keeping it abstract avoids modelling irrational reals while preserving
every structural property of the cost table.  When the summed total is
positive (any non-empty table), default_cost becomes L (5 / total),
unknown_cost default_cost + 5, and every word of effective_counts gets
cost L (count / total); the guard prob > 0 of the Python loop is kept.
self.word_costs is empty at the call site (set in __init__), so the
Python dict insertions amount to appending the built table. -/
def load_frequencies (L : ℚ → ℚ) (data : List (List Char × ℚ)) (S : Seg) : Seg :=
  let T := total_tokens data
  if 0 < T then
    { S with
      default_cost := L (qdiv 5 T)
      unknown_cost := qadd (L (qdiv 5 T)) 5
      word_costs := S.word_costs ++ (effective_counts data).filterMap
        (fun p => if 0 < qdiv p.2 T then some (p.1, L (qdiv p.2 T)) else none) }
  else S

/-! ## Dictionary loading (viterbi.py _load_dictionary) -/

/-- U+17AC, Khmer independent vowel QY (the word "or"). -/
def orChar : Char := Char.ofNat 0x17AC

/-- U+17D7, the Khmer repetition mark. -/
def repMark : Char := Char.ofNat 0x17D7

/-- Python str.split on a single character separator (consecutive
separators yield empty parts, as in Python). -/
def splitOn (sep : Char) : List Char → List (List Char)
  | [] => [[]]
  | c :: rest =>
    if c = sep then [] :: splitOn sep rest
    else
      match splitOn sep rest with
      | p :: ps => (c :: p) :: ps
      | [] => [[c]]

/-- The words_to_remove test of _load_dictionary, evaluated against the
full pre-removal word set: compounds built from the word "or" whose
remaining parts are themselves words, any word containing the repetition
mark, and any word starting with COENG. -/
def should_remove (words : List (List Char)) (w : List Char) : Bool :=
  (decide (orChar ∈ w) && decide (1 < w.length) &&
    (if w.head? = some orChar then decide (w.drop 1 ∈ words)
     else if w.getLast? = some orChar then decide (w.dropLast ∈ words)
     else (splitOn orChar w).all (fun p => decide (p ∈ words) || decide (p = []))))
  || decide (repMark ∈ w)
  || decide (w.head? = some coeng)

/-- The accumulation loop of _load_dictionary over the stripped lines of
the dictionary file: empty lines are skipped, single characters that are
not valid base characters are skipped, every other word is added together
with its generated variants (the Python set is modelled as a list with
duplicates, which membership tests do not see). -/
def words_from_lines (lines : List (List Char)) : List (List Char) :=
  lines.foldl (fun acc w =>
    if w = [] then acc
    else if w.length = 1 ∧ ¬ is_valid_single_base_char (chAt w 0) then acc
    else acc ++ [w] ++ generate_variants w) []

/-- viterbi.py _load_dictionary: build the word set with variants, then
drop the removable words, then drop the bare repetition mark (already
covered by the removal). -/
def load_dictionary (lines : List (List Char)) : List (List Char) :=
  let w0 := words_from_lines lines
  let w1 := w0.filter (fun w => ¬ should_remove w0 w)
  w1.filter (fun w => w ≠ [repMark])

/-! ## The Viterbi DP (viterbi.py segment) -/

/-- One dp cell: none is the initial (inf, -1); a set cell carries its
cost and back pointer, where the pointer none is the -1 of dp[0]. -/
abbrev Entry := Option (ℚ × Option ℕ)

/-- The dp array dp[0..n]. -/
abbrev DPA := List Entry

/-- dp cell read (out of range reads never happen on the modelled
paths). -/
def cell (dp : DPA) (k : ℕ) : Entry := dp.getD k none

/-- The initial dp array: dp[0] = (0.0, -1), everything else (inf, -1). -/
def dp_init (n : ℕ) : DPA := some (0, none) :: List.replicate n none

/-- new_cost < dp[j][0], where an unset cell is +inf. -/
def costLt (q : ℚ) (e : Entry) : Bool :=
  match e with
  | none => true
  | some (c, _) => q < c

/-- Substring text[a:b]. -/
def slice (t : List Char) (a b : ℕ) : List Char := (t.drop a).take (b - a)

/-- The force_repair flag of segment: the previous character is COENG
(both subcases of the Python code set the flag), or the current
character is a dependent vowel. -/
def force_repair (t : List Char) (i : ℕ) : Bool :=
  (decide (0 < i) && (chAt t (i - 1) == coeng)) || isDepVowel (chAt t i)

/-- The is_currency_start test of segment: a currency symbol immediately
followed by a digit. -/
def is_currency_start (t : List Char) (i : ℕ) : Bool :=
  is_currency_symbol (chAt t i) && decide (i + 1 < t.length) && isDigitChar (chAt t (i + 1))

/-- The dictionary edges relaxed at position i: one candidate for every
j in range(i+1, min(n, i+max_word_length)+1) whose slice text[i:j] is a
word, with cost get_word_cost. -/
def dict_edges (S : Seg) (t : List Char) (i : ℕ) : List (ℕ × ℚ) :=
  (List.range' (i + 1) (min t.length (i + S.max_word_length) - i)).filterMap
    (fun j => if slice t i j ∈ S.words then some (j, get_word_cost S (slice t i j)) else none)

/-- The unknown cluster / char fallback edge of segment: a Khmer
character consumes its cluster at unknown_cost (plus 10.0 for an
invalid single character), anything else consumes one character at
unknown_cost.  The next_idx <= n guard of the Python code is kept. -/
def fallback_edge (S : Seg) (t : List Char) (i : ℕ) : List (ℕ × ℚ) :=
  if is_khmer_char (chAt t i) then
    if i + cluster_length t i ≤ t.length then
      [(i + cluster_length t i,
        if cluster_length t i = 1 ∧ ¬ is_valid_single_base_char (chAt t i)
        then qadd S.unknown_cost 10 else S.unknown_cost)]
    else []
  else
    if i + 1 ≤ t.length then [(i + 1, S.unknown_cost)] else []

/-- All candidate edges relaxed from position i, in the order the Python
code relaxes them.  The repair gate replaces every other edge by the
single high-penalty one character step (its next_idx <= n guard is
kept).  Otherwise: the number/currency edge (with the span
number_length(text, i), which is 0 at a currency symbol), else the
separator edge; then the acronym edge; then the dictionary edges; then
the fallback edge. -/
def edges (S : Seg) (cat : Char → Bool) (t : List Char) (i : ℕ) : List (ℕ × ℚ) :=
  if force_repair t i then
    if i + 1 ≤ t.length then [(i + 1, qadd S.unknown_cost 50)] else []
  else
    (if isDigitChar (chAt t i) || is_currency_start t i then
      [(i + number_length t i, 1)]
     else if is_separator cat (chAt t i) then [(i + 1, mkRat 1 10)]
     else [])
    ++ (if is_acronym_start t i then [(i + acronym_length t i, S.default_cost)] else [])
    ++ dict_edges S t i
    ++ fallback_edge S t i

/-- Relaxation of one edge (j, c) from source i: if dp[i][0] + c beats
dp[j][0], the cell j is overwritten with the new cost and back pointer
i.  dp[i] is read afresh, exactly as the Python code does. -/
def relax (i : ℕ) (dp : DPA) (e : ℕ × ℚ) : DPA :=
  match cell dp i with
  | none => dp
  | some (ci, _) =>
    if costLt (qadd ci e.2) (cell dp e.1) then
      dp.set e.1 (some (qadd ci e.2, some i))
    else dp

/-- Processing of position i: skipped when dp[i] is still infinite,
otherwise every candidate edge is relaxed in order. -/
def stepDP (S : Seg) (cat : Char → Bool) (t : List Char) (dp : DPA) (i : ℕ) : DPA :=
  match cell dp i with
  | none => dp
  | some _ => (edges S cat t i).foldl (relax i) dp

/-- The dp array after the loop has processed positions 0..k-1. -/
def runDP (S : Seg) (cat : Char → Bool) (t : List Char) : ℕ → DPA
  | 0 => dp_init t.length
  | k + 1 => stepDP S cat t (runDP S cat t k) k

/-- The backtracking loop of segment.  From index curr it follows the
stored back pointer, emitting text[prev:curr]; reaching a cell that is
still (inf, -1) is the ValueError of the Python code, modelled as none.
The fuel argument dominates the number of steps; fuel = n is always
enough because stored back pointers strictly decrease (proved below). -/
def backtrack (t : List Char) (dp : DPA) : ℕ → ℕ → Option (List (List Char))
  | 0, curr => if curr = 0 then some [] else none
  | fuel + 1, curr =>
    if curr = 0 then some []
    else
      match cell dp curr with
      | none => none
      | some (_, none) => none
      | some (_, some p) =>
        (backtrack t dp fuel p).map (fun toks => toks ++ [slice t p curr])

/-! ## Rule engine (rule_engine.py) -/

/-- The three rule actions. -/
inductive RAction | merge_next | merge_prev | keep
deriving DecidableEq

/-- The target selector of a rule check. -/
inductive RTarget | prev | next | current
deriving DecidableEq

/-- One entry of a rule's checks list: target (none models an absent or
unrecognized target key), the exists flag (default false), an optional
check kind (is_separator or is_isolated, false models an absent check
key) and the optional expected value. -/
structure RCheck where
  target : Option RTarget
  req_exists : Bool
  is_sep_check : Bool
  is_iso_check : Bool
  value : Option Bool

/-- One compiled rule.  The trigger (exact_match, regex or
complexity_check is_invalid_single in the Python code) is a predicate on
the current segment in every case, so it is modelled as an abstract
predicate; the claims proved below hold for every rule table, hence for
every trigger. -/
structure Rule where
  trigger : List Char → Bool
  checks : List RCheck
  action : RAction

/-- Target resolution of apply_rules: prev and next are None out of
range, current always resolves. -/
def resolve_target (segs : List (List Char)) (i : ℕ) :
    Option RTarget → Option (List Char)
  | some .prev => if 0 < i then some (segs.getD (i - 1) []) else none
  | some .next => if i + 1 < segs.length then some (segs.getD (i + 1) []) else none
  | some .current => some (segs.getD i [])
  | none => none

/-- One check of apply_rules.  A missing target fails when existence is
required, or when a value or check key would have to be evaluated on it.
is_separator compares the separator test of the target with the expected
value; is_isolated compares "prev and next are separators or absent"
with the expected value.  A Python comparison bool != None is always
true, hence the Option Bool equality. -/
def check_pass (sep : List Char → Bool) (segs : List (List Char)) (i : ℕ)
    (ck : RCheck) : Bool :=
  match resolve_target segs i ck.target with
  | none =>
    if ck.req_exists then false
    else if ck.is_sep_check || ck.is_iso_check || ck.value.isSome then false
    else true
  | some tseg =>
    if ck.is_sep_check then some (sep tseg) == ck.value
    else if ck.is_iso_check then
      let prev_sep := if 0 < i then sep (segs.getD (i - 1) []) else true
      let next_sep := if i + 1 < segs.length then sep (segs.getD (i + 1) []) else true
      some (prev_sep && next_sep) == ck.value
    else true

/-- Whether a rule's action can actually fire at position i (an
inapplicable merge leaves rule_applied false and moves on to the next
rule in the Python loop). -/
def action_applicable (a : RAction) (segs : List (List Char)) (i : ℕ) : Bool :=
  match a with
  | .merge_next => i + 1 < segs.length
  | .merge_prev => 0 < i
  | .keep => true

/-- The first rule (in priority order) whose trigger matches, whose
checks pass and whose action applies at position i. -/
def find_action (sep : List Char → Bool) (rules : List Rule)
    (segs : List (List Char)) (i : ℕ) : Option RAction :=
  rules.findSome? (fun r =>
    if r.trigger (segs.getD i []) && (r.checks.all (check_pass sep segs i))
        && action_applicable r.action segs i
    then some r.action else none)

/-- Merging of the segments at positions k and k+1. -/
def merge2 (segs : List (List Char)) (k : ℕ) : List (List Char) :=
  (segs.set k (segs.getD k [] ++ segs.getD (k + 1) [])).eraseIdx (k + 1)

/-- The while loop of apply_rules with explicit fuel: merge_next merges
and re-examines the same index, merge_prev merges into the previous
segment and steps back, keep and "no rule fired" advance.  none models
fuel exhaustion; 2*|segs|+1 fuel always suffices (proved below). -/
def applyRulesGo (sep : List Char → Bool) (rules : List Rule) :
    ℕ → List (List Char) → ℕ → Option (List (List Char))
  | 0, segs, i => if i < segs.length then none else some segs
  | fuel + 1, segs, i =>
    if i < segs.length then
      match find_action sep rules segs i with
      | some .merge_next => applyRulesGo sep rules fuel (merge2 segs i) i
      | some .merge_prev => applyRulesGo sep rules fuel (merge2 segs (i - 1)) (i - 1)
      | some .keep => applyRulesGo sep rules fuel segs (i + 1)
      | none => applyRulesGo sep rules fuel segs (i + 1)
    else some segs

/-- rule_engine.py apply_rules (total: the fuel bound is proved
sufficient below). -/
def apply_rules (sep : List Char → Bool) (rules : List Rule)
    (segs : List (List Char)) : List (List Char) :=
  (applyRulesGo sep rules (2 * segs.length + 1) segs 0).getD segs

/-! ## Unknown collapser and segment (viterbi.py segment) -/

/-- The is_known test of the final pass of segment: digit-initial
segments (the Python code indexes seg[0]; segments are never empty on
this path), dictionary words, valid single base characters, separators,
and any segment of length at least 2 containing a dot. -/
def is_known (S : Seg) (cat : Char → Bool) (s : List Char) : Bool :=
  isDigitChar (chAt s 0) || decide (s ∈ S.words)
  || (decide (s.length = 1) && is_valid_single_base_char (chAt s 0))
  || is_separator_seg cat s
  || (decide ('.' ∈ s) && decide (2 ≤ s.length))

/-- The merge-consecutive-unknowns loop of segment: unknown segments
accumulate in the buffer, a known segment flushes the joined buffer
before being emitted, and a trailing buffer is flushed at the end. -/
def collapse_go (known : List Char → Bool) :
    List (List Char) → List (List Char) → List (List Char)
  | buf, [] => if buf.isEmpty then [] else [buf.flatten]
  | buf, s :: rest =>
    if known s then
      (if buf.isEmpty then [] else [buf.flatten]) ++ s :: collapse_go known [] rest
    else collapse_go known (buf ++ [s]) rest

/-- The text actually segmented: the input normalized and with every
U+200B removed (steps 0 and 1 of segment). -/
def seg_text (s : List Char) : List Char := (normalize s).filter (fun c => c ≠ zws)

/-- segment up to the raw Viterbi token list: normalize, strip U+200B,
run the dp over all positions and backtrack from n.  Empty input returns
[] without touching the dp. -/
def raw_segment (S : Seg) (cat : Char → Bool) (s : List Char) :
    Option (List (List Char)) :=
  let t := seg_text s
  if t.length = 0 then some []
  else backtrack t (runDP S cat t t.length) t.length t.length

/-- viterbi.py segment: the raw Viterbi tokens, post-processed by the
rule engine and the unknown collapser.  none is the ValueError of the
backtracking loop (proved unreachable below). -/
def segment (S : Seg) (cat : Char → Bool) (rules : List Rule) (s : List Char) :
    Option (List (List Char)) :=
  (raw_segment S cat s).map (fun raw =>
    collapse_go (is_known S cat) [] (apply_rules (is_separator_seg cat) rules raw))

/-- A concrete instantiation of the abstract category parameter, correct
on every character appearing in the concrete inputs evaluated below: of
those, exactly the dollar sign (Sc), the dot (Po), the comma (Po) and
the space (Zs) have a Unicode general category starting with P, S or Z;
Khmer letters are Lo, Khmer dependent signs (including COENG) are Mn,
digits are Nd and U+200B is Cf. -/
def catStd : Char → Bool := fun c => c == '$' || c == '.' || c == ',' || c == ' '

/-! ### Structured view of the normalizer used in the idempotence
analysis (claims C3): on inputs without COENG, the cluster loop
partitions the text into base-led clusters and isolated characters. -/

/-- Vowel-or-sign test (the characters a cluster absorbs when no COENG
is involved). -/
def isVS (c : Char) : Bool :=
  decide (get_char_type c = CType.vowel) || decide (get_char_type c = CType.sign)

/-- An item of the partition: a cluster with its base and modifier
characters in input order, or an isolated character. -/
inductive NItem
  | clus (b : Char) (mods : List Char)
  | lone (c : Char)

/-- The partition of a COENG-free text into items: a base character
starts a cluster that absorbs the following vowels and signs, everything
else is isolated. -/
def parseItems : List Char → List NItem
  | [] => []
  | c :: rest =>
    if get_char_type c = CType.base then
      NItem.clus c (rest.takeWhile isVS) :: parseItems (rest.dropWhile isVS)
    else NItem.lone c :: parseItems rest
termination_by l => l.length
decreasing_by
  · simp only [List.length_cons]
    exact Nat.lt_succ_of_le (List.dropWhile_sublist isVS).length_le
  · simp only [List.length_cons]
    exact Nat.lt_succ_self _

/-- The sort key of a one character modifier. -/
def charKey (c : Char) : ℚ := sort_key [c]

/-- Stable insertion of a character by key (the one character instance
of insertByKey). -/
def insertChar (x : Char) : List Char → List Char
  | [] => [x]
  | y :: ys => if charKey x ≤ charKey y then x :: y :: ys else y :: insertChar x ys

/-- Stable sort of characters by key (the one character instance of
sortByKey). -/
def csort : List Char → List Char
  | [] => []
  | x :: xs => insertChar x (csort xs)

/-- Sorting the modifiers of an item. -/
def sortItem : NItem → NItem
  | .clus b ms => .clus b (csort ms)
  | .lone c => .lone c

/-- The text a single item contributes to the normalizer output. -/
def renderItem : NItem → List Char
  | .clus b ms => sort_cluster ([b] :: ms.map (fun m => [m]))
  | .lone c => [c]

/-- The normalizer output of a partitioned COENG-free text. -/
def renderItems (l : List NItem) : List Char := (l.map renderItem).flatten

/-- Well-formedness of an item list as produced by parseItems: cluster
bases are base characters, cluster modifiers are vowels or signs, and an
isolated vowel or sign never immediately follows a cluster (the flag
records whether the previous item was a cluster). -/
def itemsWF : Bool → List NItem → Prop
  | _, [] => True
  | _, NItem.clus b ms :: rest =>
    get_char_type b = CType.base ∧ (∀ m ∈ ms, isVS m = true) ∧ itemsWF true rest
  | prev, NItem.lone c :: rest =>
    get_char_type c ≠ CType.base ∧ (prev = true → isVS c = false) ∧ itemsWF false rest

/-- The input class of the amended claim C3: no COENG (U+17D2) and no
split vowel E (U+17C1) anywhere. -/
def goodE (t : List Char) : Prop := ∀ c ∈ t, c.toNat ≠ 0x17D2 ∧ c.toNat ≠ 0x17C1

/-! ## Theorems -/

theorem qadd_eq (a b : ℚ) : qadd a b = a + b := (Rat.add_def' a b).symm

theorem qdiv_eq (a b : ℚ) : qdiv a b = a / b := by
  rw [qdiv, Rat.divInt_eq_div]
  rcases eq_or_ne b 0 with hb | hb
  · subst hb; simp
  · have hbn : (b.num : ℚ) ≠ 0 := by
      exact_mod_cast Rat.num_ne_zero.mpr hb
    have had : ((a.den : ℚ)) ≠ 0 := by exact_mod_cast a.den_nz
    have hbd : ((b.den : ℚ)) ≠ 0 := by exact_mod_cast b.den_nz
    conv_rhs => rw [← Rat.num_div_den a, ← Rat.num_div_den b]
    push_cast
    field_simp


/-- Claim C4 (code_bug evaluation).  At a currency symbol the code
computes _get_number_length(text, i) with i still at the symbol, which
is 0 because the symbol is not a digit, so the currency edge spans zero
characters and the strict cost comparison discards it: contrary to the
claimed span 1 + number_len(text, i+1), segment("$50.00") returns the
two tokens "$" and "50.00". -/
theorem c4_currency_edge_zero_span :
    number_length ['$', '5', '0', '.', '0', '0'] 0 = 0 ∧
    is_currency_start ['$', '5', '0', '.', '0', '0'] 0 = true ∧
    segment initSeg catStd [] ['$', '5', '0', '.', '0', '0'] =
      some [['$'], ['5', '0', '.', '0', '0']] := by decide

/-- Claim C1 (counterexample).  Token concatenation does not reconstruct
normalize(s): it reconstructs the U+200B-stripped second normalization.
First input: a single U+200B survives normalize but is stripped by
segment, so the concatenation is empty.  Second input (no U+200B
anywhere): normalize is not idempotent on it, and segment re-normalizes
its argument, so the concatenation differs from normalize(s) again. -/
theorem c1_counterexample :
    (segment initSeg catStd [] (normalize [zws])).map List.flatten ≠
      some (normalize [zws]) ∧
    (segment initSeg catStd [] (normalize [Char.ofNat 0x1780, Char.ofNat 0x17D2,
        Char.ofNat 0x17D2, Char.ofNat 0x1781, Char.ofNat 0x179A, Char.ofNat 0x17D2,
        Char.ofNat 0x1782])).map List.flatten ≠
      some (normalize [Char.ofNat 0x1780, Char.ofNat 0x17D2, Char.ofNat 0x17D2,
        Char.ofNat 0x1781, Char.ofNat 0x179A, Char.ofNat 0x17D2, Char.ofNat 0x1782]) := by
  decide

/-- Claim C3 (counterexample).  normalize is not idempotent.  First
input (contains no COENG): the stable reorder moves the sign U+17C6
behind the vowels, creating a new U+17C1 U+17B8 adjacency that only the
second application merges into U+17BE.  Second input (contains no
U+17C1): a stray lone COENG sorted to the end of its cluster captures
the base of the following cluster on re-parsing, and the re-sorted
merged cluster differs. -/
theorem c3_counterexample :
    normalize (normalize [Char.ofNat 0x1780, Char.ofNat 0x17C1, Char.ofNat 0x17C6,
        Char.ofNat 0x17B8]) ≠
      normalize [Char.ofNat 0x1780, Char.ofNat 0x17C1, Char.ofNat 0x17C6,
        Char.ofNat 0x17B8] ∧
    normalize (normalize [Char.ofNat 0x1780, Char.ofNat 0x17D2, Char.ofNat 0x17D2,
        Char.ofNat 0x1781, Char.ofNat 0x179A, Char.ofNat 0x17D2, Char.ofNat 0x1782]) ≠
      normalize [Char.ofNat 0x1780, Char.ofNat 0x17D2, Char.ofNat 0x17D2,
        Char.ofNat 0x1781, Char.ofNat 0x179A, Char.ofNat 0x17D2, Char.ofNat 0x1782] := by
  decide

/-- Claim C8 (counterexample).  On the input of two stray COENG both raw
tokens are the single-character COENG (one from the fallback edge, one
from the repair edge), both are unknown, and the unknown collapser
concatenates them: the returned token begins with COENG and has length
2, not 1. -/
theorem c8_counterexample :
    segment initSeg catStd [] [coeng, coeng] = some [[coeng, coeng]] ∧
    (coeng :: [coeng]).length = 2 := by decide

/-- Claim C5: when the repair gate fires at position i (the previous
character is COENG, or the current character is a dependent vowel), the
candidate edge list is exactly the single edge i -> i+1 with cost
unknown_cost + 50.0, and processing the position relaxes exactly that
edge: no number, separator, acronym, dictionary or fallback edge is
considered. -/
theorem c5_repair_gate (S : Seg) (cat : Char → Bool) (t : List Char) (i : ℕ)
    (hi : i < t.length)
    (h : (0 < i ∧ chAt t (i - 1) = coeng) ∨ isDepVowel (chAt t i) = true) :
    edges S cat t i = [(i + 1, S.unknown_cost + 50)] ∧
    ∀ dp q po, cell dp i = some (q, po) →
      stepDP S cat t dp i = relax i dp (i + 1, S.unknown_cost + 50) := by
  have hfr : force_repair t i = true := by
    rcases h with ⟨h1, h2⟩ | h2
    · simp [force_repair, h1, h2]
    · simp [force_repair, h2]
  have hedges : edges S cat t i = [(i + 1, S.unknown_cost + 50)] := by
    rw [edges, hfr, qadd_eq]
    simp [Nat.succ_le_of_lt hi]
  refine ⟨hedges, ?_⟩
  intro dp q po hcell
  rw [stepDP, hcell, hedges]
  rfl

/-- Claim C5 witness: a lone dependent vowel fires the gate at
position 0. -/
theorem c5_repair_gate_witness :
    edges initSeg catStd [Char.ofNat 0x17B6] 0 =
      [(1, initSeg.unknown_cost + 50)] :=
  (c5_repair_gate initSeg catStd [Char.ofNat 0x17B6] 0 (by decide)
    (Or.inr (by decide))).1

theorem total_tokens_eq_sum (data : List (List Char × ℚ)) :
    total_tokens data = (data.map (fun p => max p.2 5)).sum := by
  have key : ∀ (l : List (List Char × ℚ)) (a : ℚ),
      l.foldl (fun a p => qadd a (max p.2 5)) a = a + (l.map (fun p => max p.2 5)).sum := by
    intro l
    induction l with
    | nil => intro a; simp
    | cons p rest ih =>
      intro a
      rw [List.foldl_cons, ih, qadd_eq]
      simp only [List.map_cons, List.sum_cons]
      ring
  simpa using key data 0

theorem total_tokens_pos (data : List (List Char × ℚ)) (h : data ≠ []) :
    0 < total_tokens data := by
  rw [total_tokens_eq_sum]
  rcases data with _ | ⟨p, rest⟩
  · exact absurd rfl h
  · simp only [List.map_cons, List.sum_cons]
    have h1 : (5:ℚ) ≤ max p.2 5 := le_max_right _ _
    have h2 : (0:ℚ) ≤ (rest.map (fun p => max p.2 5)).sum := by
      apply List.sum_nonneg
      intro x hx
      rcases List.mem_map.mp hx with ⟨q, _, rfl⟩
      have h5 : (0:ℚ) ≤ 5 := by norm_num
      exact h5.trans (le_max_right _ _)
    linarith

/-- Claim C6: get_word_cost returns the explicit entry when present,
else default_cost for dictionary words, else unknown_cost; and after
loading a non-empty frequency table, default_cost = L (5 / T) with
T the sum of max(count, 5.0) over the table's primary words and L the
(abstract) -log10, and unknown_cost = default_cost + 5. -/
theorem c6_cost_model (L : ℚ → ℚ) (data : List (List Char × ℚ)) (S : Seg)
    (w : List Char) (c : ℚ) :
    (alookup w S.word_costs = some c → get_word_cost S w = c) ∧
    (alookup w S.word_costs = none → w ∈ S.words → get_word_cost S w = S.default_cost) ∧
    (alookup w S.word_costs = none → w ∉ S.words → get_word_cost S w = S.unknown_cost) ∧
    (data ≠ [] →
      (load_frequencies L data S).default_cost = L (5 / total_tokens data) ∧
      (load_frequencies L data S).unknown_cost
        = (load_frequencies L data S).default_cost + 5 ∧
      total_tokens data = (data.map (fun p => max p.2 5)).sum) := by
  refine ⟨?_, ?_, ?_, ?_⟩
  · intro h; rw [get_word_cost, h]
  · intro h hw; rw [get_word_cost, h]; simp [hw]
  · intro h hw; rw [get_word_cost, h]; simp [hw]
  · intro hdata
    have hpos : 0 < total_tokens data := total_tokens_pos data hdata
    rw [load_frequencies]
    simp only [hpos, if_true]
    exact ⟨by rw [qdiv_eq], by rw [qadd_eq, qdiv_eq], total_tokens_eq_sum data⟩

/-- Claim C6 witness: a one-entry table with count 1000 gives
T = 1000, default_cost = L(5/1000) and unknown_cost 5 above it
(with L instantiated to the identity for concrete evaluation). -/
theorem c6_cost_model_witness :
    ([([Char.ofNat 0x1780], 1000)] : List (List Char × ℚ)) ≠ [] ∧
    (load_frequencies id [([Char.ofNat 0x1780], 1000)] initSeg).default_cost
      = id ((5:ℚ) / total_tokens [([Char.ofNat 0x1780], 1000)]) :=
  ⟨by decide,
   ((c6_cost_model id [([Char.ofNat 0x1780], 1000)] initSeg [] 0).2.2.2
     (by decide)).1⟩

theorem find_action_applicable (sep : List Char → Bool) (rules : List Rule)
    (segs : List (List Char)) (i : ℕ) (a : RAction)
    (h : find_action sep rules segs i = some a) :
    action_applicable a segs i = true := by
  rcases List.exists_of_findSome?_eq_some h with ⟨r, -, hr⟩
  split at hr
  · rename_i hcond
    injection hr with hra
    subst hra
    simp only [Bool.and_eq_true] at hcond
    exact hcond.2
  · exact absurd hr (by simp)

theorem merge2_length (segs : List (List Char)) (k : ℕ) (h : k + 1 < segs.length) :
    (merge2 segs k).length = segs.length - 1 := by
  rw [merge2, List.length_eraseIdx]
  simp [h]

theorem applyRulesGo_some (sep : List Char → Bool) (rules : List Rule) :
    ∀ (fuel : ℕ) (segs : List (List Char)) (i : ℕ),
      2 * segs.length - i < fuel →
      ∃ r, applyRulesGo sep rules fuel segs i = some r := by
  intro fuel
  induction fuel with
  | zero => intro segs i h; omega
  | succ f ih =>
    intro segs i h
    rw [applyRulesGo]
    by_cases hlt : i < segs.length
    · simp only [hlt, if_true]
      rcases hfa : find_action sep rules segs i with _ | a
      · exact ih segs (i + 1) (by omega)
      · have happ := find_action_applicable sep rules segs i a hfa
        cases a with
        | merge_next =>
          have hnext : i + 1 < segs.length := by
            simpa [action_applicable] using happ
          have hlen := merge2_length segs i hnext
          exact ih (merge2 segs i) i (by omega)
        | merge_prev =>
          have hprev : 0 < i := by
            simpa [action_applicable] using happ
          have hnext : (i - 1) + 1 < segs.length := by omega
          have hlen := merge2_length segs (i - 1) hnext
          exact ih (merge2 segs (i - 1)) (i - 1) (by omega)
        | keep => exact ih segs (i + 1) (by omega)
    · simp [hlt]

/-- Claim C9: apply_rules terminates on every finite segment list and
every rule table: each merge strictly shrinks the list, keep and
"no rule fired" advance the index, so 2*|segs|+1 loop iterations always
suffice and the fuelled loop returns normally, which is what
apply_rules runs. -/
theorem c9_apply_rules_terminates (sep : List Char → Bool) (rules : List Rule)
    (segs : List (List Char)) :
    ∃ r, applyRulesGo sep rules (2 * segs.length + 1) segs 0 = some r ∧
      apply_rules sep rules segs = r := by
  rcases applyRulesGo_some sep rules (2 * segs.length + 1) segs 0 (by omega) with ⟨r, hr⟩
  exact ⟨r, hr, by rw [apply_rules, hr]; rfl⟩

/-! ### Association list lemmas for the cost table (claim C7) -/

theorem alookup_append_some (x : List Char) (a b : List (List Char × ℚ)) (e : ℚ)
    (h : alookup x a = some e) : alookup x (a ++ b) = some e := by
  induction a with
  | nil => simp [alookup] at h
  | cons p rest ih =>
    rw [alookup] at h
    rw [List.cons_append, alookup]
    by_cases hp : p.1 = x
    · simpa [hp] using h
    · rw [if_neg hp] at h ⊢; exact ih h

theorem alookup_append_one (x u : List Char) (a : List (List Char × ℚ)) (e : ℚ)
    (h : alookup x a = none) :
    alookup x (a ++ [(u, e)]) = if u = x then some e else none := by
  induction a with
  | nil => simp [alookup]
  | cons p rest ih =>
    rw [alookup] at h
    rw [List.cons_append, alookup]
    by_cases hp : p.1 = x
    · simp [hp] at h
    · rw [if_neg hp] at h ⊢; exact ih h

theorem alookup_dinsert_self (k : List Char) (e : ℚ) (a : List (List Char × ℚ)) :
    alookup k (dinsert k e a) = some e := by
  induction a with
  | nil => simp [dinsert, alookup]
  | cons p rest ih =>
    rw [dinsert]
    by_cases hp : p.1 = k
    · simp [hp, alookup]
    · rw [if_neg hp, alookup, if_neg hp]; exact ih

theorem alookup_dinsert_ne (x k : List Char) (e : ℚ) (a : List (List Char × ℚ))
    (hk : k ≠ x) : alookup x (dinsert k e a) = alookup x a := by
  induction a with
  | nil => simp [dinsert, alookup, hk]
  | cons p rest ih =>
    rw [dinsert]
    by_cases hp : p.1 = k
    · subst hp; simp [alookup, hk]
    · rw [if_neg hp, alookup, alookup]
      by_cases hx : p.1 = x
      · simp [hx]
      · rw [if_neg hx, if_neg hx]; exact ih

theorem vfold_preserves_some (eff : ℚ) (x : List Char) (e : ℚ) :
    ∀ (vs : List (List Char)) (a : List (List Char × ℚ)),
      alookup x a = some e →
      alookup x (vs.foldl
        (fun a v => if (alookup v a).isSome then a else a ++ [(v, eff)]) a) = some e := by
  intro vs
  induction vs with
  | nil => intro a h; simpa using h
  | cons u rest ih =>
    intro a h
    rw [List.foldl_cons]
    by_cases hu : (alookup u a).isSome
    · rw [if_pos hu]; exact ih a h
    · rw [if_neg hu]; exact ih _ (alookup_append_some x a [(u, eff)] e h)

theorem vfold_none (eff : ℚ) (x : List Char) :
    ∀ (vs : List (List Char)) (a : List (List Char × ℚ)),
      (∀ u ∈ vs, u ≠ x) → alookup x a = none →
      alookup x (vs.foldl
        (fun a v => if (alookup v a).isSome then a else a ++ [(v, eff)]) a) = none := by
  intro vs
  induction vs with
  | nil => intro a _ h; simpa using h
  | cons u rest ih =>
    intro a hne h
    rw [List.foldl_cons]
    by_cases hu : (alookup u a).isSome
    · rw [if_pos hu]; exact ih a (fun u hu2 => hne u (List.mem_cons_of_mem _ hu2)) h
    · rw [if_neg hu]
      refine ih _ (fun u hu2 => hne u (List.mem_cons_of_mem _ hu2)) ?_
      rw [alookup_append_one x u a eff h,
        if_neg (hne u (List.mem_cons_self u rest))]

theorem vfold_adds (eff : ℚ) (x : List Char) :
    ∀ (vs : List (List Char)) (a : List (List Char × ℚ)),
      x ∈ vs → alookup x a = none →
      alookup x (vs.foldl
        (fun a v => if (alookup v a).isSome then a else a ++ [(v, eff)]) a) = some eff := by
  intro vs
  induction vs with
  | nil => intro a h; simp at h
  | cons u rest ih =>
    intro a hx h
    rw [List.foldl_cons]
    by_cases hux : u = x
    · subst hux
      rw [if_neg (by simp [h]), ]
      exact vfold_preserves_some eff u eff rest _
        (by rw [alookup_append_one u u a eff h, if_pos rfl])
    · have hx2 : x ∈ rest := by
        rcases List.mem_cons.mp hx with h1 | h1
        · exact absurd h1.symm hux
        · exact h1
      by_cases hu : (alookup u a).isSome
      · rw [if_pos hu]; exact ih a hx2 h
      · rw [if_neg hu]
        refine ih _ hx2 ?_
        rw [alookup_append_one x u a eff h, if_neg hux]

theorem ec_step_preserves_some (x : List Char) (e : ℚ) (acc : List (List Char × ℚ))
    (p : List Char × ℚ) (hne : p.1 ≠ x) (h : alookup x acc = some e) :
    alookup x (ec_step acc p) = some e := by
  rw [ec_step]
  exact vfold_preserves_some _ x e _ _ (by rw [alookup_dinsert_ne x p.1 _ acc hne]; exact h)

theorem ec_step_none (x : List Char) (acc : List (List Char × ℚ))
    (p : List Char × ℚ) (hne : p.1 ≠ x) (hnv : x ∉ generate_variants p.1)
    (h : alookup x acc = none) : alookup x (ec_step acc p) = none := by
  rw [ec_step]
  refine vfold_none _ x _ _ (fun u hu => ?_) ?_
  · intro huv; exact hnv (huv ▸ hu)
  · rw [alookup_dinsert_ne x p.1 _ acc hne]; exact h

theorem ec_step_establish (acc : List (List Char × ℚ)) (w v : List Char) (cnt : ℚ)
    (hvw : w ≠ v) (hv : alookup v acc = none) (hgen : v ∈ generate_variants w) :
    alookup v (ec_step acc (w, cnt)) = some (max cnt 5) ∧
    alookup w (ec_step acc (w, cnt)) = some (max cnt 5) := by
  rw [ec_step]
  constructor
  · exact vfold_adds _ v _ _ hgen (by rw [alookup_dinsert_ne v w _ acc hvw]; exact hv)
  · exact vfold_preserves_some _ w _ _ _ (alookup_dinsert_self w _ acc)

theorem ecfold_preserves_some (x : List Char) (e : ℚ) :
    ∀ (l : List (List Char × ℚ)) (acc : List (List Char × ℚ)),
      (∀ p ∈ l, p.1 ≠ x) → alookup x acc = some e →
      alookup x (l.foldl ec_step acc) = some e := by
  intro l
  induction l with
  | nil => intro acc _ h; simpa using h
  | cons p rest ih =>
    intro acc hne h
    rw [List.foldl_cons]
    exact ih _ (fun q hq => hne q (List.mem_cons_of_mem _ hq))
      (ec_step_preserves_some x e acc p (hne p (List.mem_cons_self p rest)) h)

theorem ecfold_none (x : List Char) :
    ∀ (l : List (List Char × ℚ)) (acc : List (List Char × ℚ)),
      (∀ p ∈ l, p.1 ≠ x ∧ x ∉ generate_variants p.1) → alookup x acc = none →
      alookup x (l.foldl ec_step acc) = none := by
  intro l
  induction l with
  | nil => intro acc _ h; simpa using h
  | cons p rest ih =>
    intro acc hne h
    rw [List.foldl_cons]
    refine ih _ (fun q hq => hne q (List.mem_cons_of_mem _ hq)) ?_
    exact ec_step_none x acc p (hne p (List.mem_cons_self p rest)).1
      (hne p (List.mem_cons_self p rest)).2 h

theorem alookup_none_forall (x : List Char) (l : List (List Char × ℚ))
    (h : alookup x l = none) : ∀ p ∈ l, p.1 ≠ x := by
  induction l with
  | nil => intro p hp; simp at hp
  | cons q rest ih =>
    rw [alookup] at h
    intro p hp
    by_cases hq : q.1 = x
    · simp [hq] at h
    · rw [if_neg hq] at h
      rcases List.mem_cons.mp hp with rfl | hp2
      · exact hq
      · exact ih h p hp2

theorem effective_counts_first_generator (data : List (List Char × ℚ))
    (v w : List Char) (cnt : ℚ)
    (hnd : (data.map Prod.fst).Nodup)
    (hv : alookup v data = none)
    (hw : data.find? (fun p => decide (v ∈ generate_variants p.1)) = some (w, cnt)) :
    alookup v (effective_counts data) = some (max cnt 5) ∧
    alookup w (effective_counts data) = some (max cnt 5) := by
  rcases (List.find?_eq_some).mp hw with ⟨hgen, pre, post, hdat, hpre⟩
  have hgen2 : v ∈ generate_variants w := by simpa using hgen
  have hkeys := alookup_none_forall v data hv
  have hvw : w ≠ v := hkeys (w, cnt) (hdat ▸ List.mem_append_right pre (List.mem_cons_self _ post))
  subst hdat
  rw [effective_counts, List.foldl_append, List.foldl_cons]
  have hpre_none : alookup v (pre.foldl ec_step []) = none := by
    refine ecfold_none v pre [] (fun p hp => ⟨hkeys p (List.mem_append_left _ hp), ?_⟩) rfl
    have := hpre p hp
    simpa using this
  have hstep := ec_step_establish (pre.foldl ec_step []) w v cnt hvw hpre_none hgen2
  have hpost_w : ∀ p ∈ post, p.1 ≠ w := by
    rw [List.map_append, List.map_cons] at hnd
    have hnotin : (w, cnt).1 ∉ post.map Prod.fst :=
      (List.nodup_cons.mp (List.Nodup.of_append_right hnd)).1
    intro p hp hpw
    have hmem : p.1 ∈ post.map Prod.fst := List.mem_map_of_mem Prod.fst hp
    rw [hpw] at hmem
    exact hnotin hmem
  constructor
  · exact ecfold_preserves_some v _ post _
      (fun p hp => hkeys p (List.mem_append_right _ (List.mem_cons_of_mem _ hp))) hstep.1
  · exact ecfold_preserves_some w _ post _ hpost_w hstep.2

theorem alookup_filterMap_cost (L : ℚ → ℚ) (T : ℚ) (x : List Char) (e : ℚ) :
    ∀ ec : List (List Char × ℚ), alookup x ec = some e → 0 < qdiv e T →
      alookup x (ec.filterMap
        (fun p => if 0 < qdiv p.2 T then some (p.1, L (qdiv p.2 T)) else none))
      = some (L (qdiv e T)) := by
  intro ec
  induction ec with
  | nil => intro h; simp [alookup] at h
  | cons p rest ih =>
    intro h hpos
    rw [alookup] at h
    by_cases hp : p.1 = x
    · rw [if_pos hp] at h
      injection h with he
      subst he
      rw [List.filterMap_cons, if_pos hpos]
      simp [alookup, hp]
    · rw [if_neg hp] at h
      rw [List.filterMap_cons]
      by_cases hq : 0 < qdiv p.2 T
      · rw [if_pos hq]
        show alookup x ((p.1, L (qdiv p.2 T)) :: _) = _
        rw [alookup, if_neg hp]
        exact ih h hpos
      · rw [if_neg hq]
        show alookup x (List.filterMap _ rest) = _
        exact ih h hpos

/-- Claim C7 (amended): a variant v with no explicit count of its own
inherits the effective count, hence the cost, of the first primary word
of the table (in iteration order) whose generated variants contain v;
when that first generator is w, cost(v) = cost(w). -/
theorem c7_variant_inherits_first_generator (L : ℚ → ℚ)
    (data : List (List Char × ℚ)) (S : Seg) (v w : List Char) (cnt : ℚ)
    (hS : S.word_costs = [])
    (hnd : (data.map Prod.fst).Nodup)
    (hv : alookup v data = none)
    (hw : data.find? (fun p => decide (v ∈ generate_variants p.1)) = some (w, cnt)) :
    alookup v (load_frequencies L data S).word_costs
      = some (L (max cnt 5 / total_tokens data)) ∧
    alookup w (load_frequencies L data S).word_costs
      = some (L (max cnt 5 / total_tokens data)) ∧
    get_word_cost (load_frequencies L data S) v
      = get_word_cost (load_frequencies L data S) w := by
  have hdata : data ≠ [] := by
    intro h; subst h; simp at hw
  have hpos : 0 < total_tokens data := total_tokens_pos data hdata
  have hec := effective_counts_first_generator data v w cnt hnd hv hw
  have heffpos : 0 < qdiv (max cnt 5) (total_tokens data) := by
    rw [qdiv_eq]
    apply div_pos _ hpos
    have h5 : (0:ℚ) < 5 := by norm_num
    exact h5.trans_le (le_max_right _ _)
  have hwc : (load_frequencies L data S).word_costs
      = (effective_counts data).filterMap
        (fun p => if 0 < qdiv p.2 (total_tokens data)
                  then some (p.1, L (qdiv p.2 (total_tokens data))) else none) := by
    rw [load_frequencies]
    simp only [hpos, if_true, hS, List.nil_append]
  have h1 : alookup v (load_frequencies L data S).word_costs
      = some (L (qdiv (max cnt 5) (total_tokens data))) := by
    rw [hwc]; exact alookup_filterMap_cost L _ v _ _ hec.1 heffpos
  have h2 : alookup w (load_frequencies L data S).word_costs
      = some (L (qdiv (max cnt 5) (total_tokens data))) := by
    rw [hwc]; exact alookup_filterMap_cost L _ w _ _ hec.2 heffpos
  rw [qdiv_eq] at h1 h2
  exact ⟨h1, h2, by rw [get_word_cost, get_word_cost, h1, h2]⟩

/-- Claim C7 (counterexample).  The two primaries K+Coeng.Ro+Coeng.Ta
(count 100) and K+Coeng.Ta+Coeng.Ro (count 7) both generate the variant
K+Coeng.Da+Coeng.Ro, which has no count of its own; it inherits the
effective count 100 of the first, so its cost differs from the cost of
its generator with count 7 (L instantiated to the injective identity;
the real -log10 is injective on positive rationals, so the real costs
differ as well). -/
theorem c7_counterexample :
    (let w1 : List Char := [Char.ofNat 0x1780, Char.ofNat 0x17D2, Char.ofNat 0x179A,
        Char.ofNat 0x17D2, Char.ofNat 0x178F]
     let w2 : List Char := [Char.ofNat 0x1780, Char.ofNat 0x17D2, Char.ofNat 0x178F,
        Char.ofNat 0x17D2, Char.ofNat 0x179A]
     let v : List Char := [Char.ofNat 0x1780, Char.ofNat 0x17D2, Char.ofNat 0x178A,
        Char.ofNat 0x17D2, Char.ofNat 0x179A]
     let data : List (List Char × ℚ) := [(w1, 100), (w2, 7)]
     v ∈ generate_variants w2 ∧ alookup v data = none ∧
     alookup v (effective_counts data) = some 100 ∧
     alookup w2 (effective_counts data) = some 7 ∧
     get_word_cost (load_frequencies id data initSeg) v
       ≠ get_word_cost (load_frequencies id data initSeg) w2) := by
  decide

/-- Claim C7 witness: a single-primary table; the Ta/Da variant of its
only word inherits its cost. -/
theorem c7_variant_witness :
    get_word_cost (load_frequencies id
        [([Char.ofNat 0x1780, Char.ofNat 0x17D2, Char.ofNat 0x178F], 1000)] initSeg)
        [Char.ofNat 0x1780, Char.ofNat 0x17D2, Char.ofNat 0x178A]
      = get_word_cost (load_frequencies id
        [([Char.ofNat 0x1780, Char.ofNat 0x17D2, Char.ofNat 0x178F], 1000)] initSeg)
        [Char.ofNat 0x1780, Char.ofNat 0x17D2, Char.ofNat 0x178F] :=
  (c7_variant_inherits_first_generator id
    [([Char.ofNat 0x1780, Char.ofNat 0x17D2, Char.ofNat 0x178F], 1000)] initSeg
    [Char.ofNat 0x1780, Char.ofNat 0x17D2, Char.ofNat 0x178A]
    [Char.ofNat 0x1780, Char.ofNat 0x17D2, Char.ofNat 0x178F] 1000
    rfl (by decide) (by decide) (by decide)).2.2

/-! ### dp array cell lemmas -/

theorem cell_set_self (dp : DPA) (k : ℕ) (e : Entry) (h : k < dp.length) :
    cell (dp.set k e) k = e := by
  simp [cell, List.getD_eq_getElem?_getD, List.getElem?_set_self, h]

theorem cell_set_ne (dp : DPA) (j k : ℕ) (e : Entry) (h : j ≠ k) :
    cell (dp.set j e) k = cell dp k := by
  simp [cell, List.getD_eq_getElem?_getD, List.getElem?_set_ne, h]

theorem cell_dp_init_zero (n : ℕ) : cell (dp_init n) 0 = some (0, none) := rfl

theorem cell_dp_init_pos (n k : ℕ) (h : 0 < k) : cell (dp_init n) k = none := by
  rcases k with _ | k
  · omega
  · simp only [cell, dp_init, List.getD_eq_getElem?_getD, List.getElem?_cons_succ]
    rcases Nat.lt_or_ge k n with hk | hk
    · rw [List.getElem?_eq_getElem (by simpa using hk)]
      simp [List.getElem_replicate]
    · rw [List.getElem?_eq_none (by simpa using hk)]
      rfl

theorem dp_init_length (n : ℕ) : (dp_init n).length = n + 1 := by
  simp [dp_init]

/-! ### Scanner bounds -/

theorem clusterScan_le : ∀ (n : ℕ) (l : List Char), l.length ≤ n →
    clusterScan l ≤ l.length := by
  intro n
  induction n with
  | zero =>
    intro l hl
    rw [List.length_eq_zero.mp (Nat.le_zero.mp hl)]
    simp [clusterScan]
  | succ n ih =>
    intro l hl
    match l with
    | [] => simp [clusterScan]
    | [c] =>
      rw [clusterScan]
      split
      · simp
      · split <;> simp
    | c :: d :: rest2 =>
      have h2 := ih rest2 (by simp only [List.length_cons] at hl; omega)
      have h1 := ih (d :: rest2) (by simp only [List.length_cons] at hl ⊢; omega)
      rw [clusterScan]
      simp only [List.length_cons] at h2 h1 ⊢
      split
      · split <;> omega
      · split <;> omega

theorem numberScan_le : ∀ (n : ℕ) (l : List Char), l.length ≤ n →
    numberScan l ≤ l.length := by
  intro n
  induction n with
  | zero =>
    intro l hl
    rw [List.length_eq_zero.mp (Nat.le_zero.mp hl)]
    simp [numberScan]
  | succ n ih =>
    intro l hl
    match l with
    | [] => simp [numberScan]
    | [c] =>
      rw [numberScan]
      split <;> simp
    | c :: d :: rest2 =>
      have h2 := ih rest2 (by simp only [List.length_cons] at hl; omega)
      have h1 := ih (d :: rest2) (by simp only [List.length_cons] at hl ⊢; omega)
      rw [numberScan]
      simp only [List.length_cons] at h2 h1 ⊢
      split
      · omega
      · split
        · split <;> omega
        · omega

theorem cluster_length_pos (t : List Char) (i : ℕ) (h : i < t.length) :
    1 ≤ cluster_length t i := by
  rw [cluster_length, if_neg (by omega)]
  split <;> omega

theorem cluster_length_le (t : List Char) (i : ℕ) (h : i < t.length) :
    i + cluster_length t i ≤ t.length := by
  rw [cluster_length, if_neg (by omega)]
  split
  · omega
  · have hs := clusterScan_le (t.drop (i + 1)).length (t.drop (i + 1)) le_rfl
    rw [List.length_drop] at hs
    omega

theorem number_length_le (t : List Char) (i : ℕ) :
    i + number_length t i ≤ t.length ∨ number_length t i = 0 := by
  rw [number_length]
  split
  · rename_i hcond
    have hs := numberScan_le (t.drop (i + 1)).length (t.drop (i + 1)) le_rfl
    rw [List.length_drop] at hs
    left
    omega
  · right; rfl

theorem number_length_pos_of_digit (t : List Char) (i : ℕ) (h : i < t.length)
    (hd : isDigitChar (chAt t i) = true) : 1 ≤ number_length t i := by
  rw [number_length, if_pos ⟨h, hd⟩]
  omega

theorem acronymGo_ge (t : List Char) : ∀ (fuel i : ℕ), i ≤ acronymGo t fuel i := by
  intro fuel
  induction fuel with
  | zero => intro i; simp [acronymGo]
  | succ f ih =>
    intro i
    rw [acronymGo]
    split
    · split
      · rename_i hcl
        exact le_trans (by omega) (ih (i + cluster_length t i + 1))
      · exact le_rfl
    · exact le_rfl

theorem acronymGo_le (t : List Char) : ∀ (fuel i : ℕ), i ≤ t.length →
    acronymGo t fuel i ≤ t.length := by
  intro fuel
  induction fuel with
  | zero => intro i h; simpa [acronymGo] using h
  | succ f ih =>
    intro i h
    rw [acronymGo]
    split
    · split
      · rename_i hcl
        exact ih (i + cluster_length t i + 1) (by omega)
      · exact h
    · exact h

theorem acronym_length_le (t : List Char) (i : ℕ) (h : i ≤ t.length) :
    i + acronym_length t i ≤ t.length := by
  rw [acronym_length]
  have h1 := acronymGo_ge t t.length i
  have h2 := acronymGo_le t t.length i h
  omega

theorem acronym_length_pos (t : List Char) (i : ℕ)
    (h : is_acronym_start t i = true) : 1 ≤ acronym_length t i := by
  rw [is_acronym_start] at h
  split at h
  · exact absurd h (by simp)
  · split at h
    · exact absurd h (by simp)
    · split at h
      · exact absurd h (by simp)
      · rename_i hlen hbase hcl
        simp only [Bool.and_eq_true, decide_eq_true_eq, beq_iff_eq] at h
        obtain ⟨f, hf⟩ : ∃ f, t.length = f + 1 := ⟨t.length - 1, by omega⟩
        have hstep : acronymGo t (f + 1) i
            = acronymGo t f (i + cluster_length t i + 1) := by
          rw [acronymGo]
          rw [if_pos ⟨by omega, not_not.mp hbase⟩]
          rw [if_pos ⟨by omega, h.1, h.2⟩]
        have hge := acronymGo_ge t f (i + cluster_length t i + 1)
        rw [acronym_length, hf, hstep]
        omega

/-! ### Slice lemmas -/

theorem chAt_eq_getElem (t : List Char) (i : ℕ) (h : i < t.length) :
    chAt t i = t[i] := by
  rw [chAt, List.getD_eq_getElem?_getD, List.getElem?_eq_getElem h]
  rfl

theorem slice_head (t : List Char) (i j : ℕ) (hi : i < t.length) (hij : i < j) :
    (slice t i j).head? = some (chAt t i) := by
  rw [slice, List.drop_eq_getElem_cons hi]
  obtain ⟨k, hk⟩ : ∃ k, j - i = k + 1 := ⟨j - i - 1, by omega⟩
  rw [hk, List.take_succ_cons, List.head?_cons, chAt_eq_getElem t i hi]

theorem slice_ne_nil (t : List Char) (i j : ℕ) (hi : i < t.length) (hij : i < j) :
    slice t i j ≠ [] := by
  intro h
  have := slice_head t i j hi hij
  rw [h] at this
  exact Option.noConfusion this

theorem take_append_slice (t : List Char) (p c : ℕ) (h : p ≤ c) :
    t.take p ++ slice t p c = t.take c := by
  rw [slice, ← List.take_add, Nat.add_sub_cancel' h]

/-! ### Edge facts -/

theorem edges_target (S : Seg) (cat : Char → Bool) (t : List Char) (i : ℕ)
    (hi : i < t.length) :
    ∀ e ∈ edges S cat t i, (e.1 = i ∧ e.2 = 1) ∨ i < e.1 := by
  intro e he
  rw [edges] at he
  split at he
  · split at he
    · rcases List.mem_singleton.mp he with rfl
      right; omega
    · exact absurd he (List.not_mem_nil e)
  · rcases List.mem_append.mp he with he1 | hefb
    rcases List.mem_append.mp he1 with he2 | hedict
    rcases List.mem_append.mp he2 with heno | heacr
    · -- number / separator block
      split at heno
      · rcases List.mem_singleton.mp heno with rfl
        rcases Nat.eq_zero_or_pos (number_length t i) with h0 | h0
        · left; exact ⟨by omega, rfl⟩
        · right; omega
      · split at heno
        · rcases List.mem_singleton.mp heno with rfl
          right; omega
        · exact absurd heno (List.not_mem_nil e)
    · -- acronym block
      split at heacr
      · rcases List.mem_singleton.mp heacr with rfl
        rename_i hstart
        have := acronym_length_pos t i hstart
        right; omega
      · exact absurd heacr (List.not_mem_nil e)
    · -- dictionary block
      rcases List.mem_filterMap.mp hedict with ⟨j, hj, hfj⟩
      have hj2 := (List.mem_range'_1.mp hj).1
      split at hfj
      · injection hfj with hfj2
        right
        rw [← hfj2]
        omega
      · exact Option.noConfusion hfj
    · -- fallback block
      rw [fallback_edge] at hefb
      split at hefb
      · split at hefb
        · rcases List.mem_singleton.mp hefb with rfl
          have := cluster_length_pos t i hi
          right; omega
        · exact absurd hefb (List.not_mem_nil e)
      · split at hefb
        · rcases List.mem_singleton.mp hefb with rfl
          right; omega
        · exact absurd hefb (List.not_mem_nil e)

theorem edges_progress (S : Seg) (cat : Char → Bool) (t : List Char) (i : ℕ)
    (hi : i < t.length) :
    ∃ e ∈ edges S cat t i, i < e.1 ∧ e.1 ≤ t.length := by
  rw [edges]
  split
  · rw [if_pos (by omega)]
    exact ⟨(i + 1, qadd S.unknown_cost 50), List.mem_singleton.mpr rfl, by omega, by omega⟩
  · have hfb : ∃ e ∈ fallback_edge S t i, i < e.1 ∧ e.1 ≤ t.length := by
      rw [fallback_edge]
      split
      · have h1 := cluster_length_pos t i hi
        have h2 := cluster_length_le t i hi
        rw [if_pos h2]
        exact ⟨_, List.mem_singleton.mpr rfl, by omega, by omega⟩
      · rw [if_pos (by omega)]
        exact ⟨_, List.mem_singleton.mpr rfl, by omega, by omega⟩
    rcases hfb with ⟨e, he, h1, h2⟩
    exact ⟨e, List.mem_append_right _ he, h1, h2⟩

theorem edges_coeng (S : Seg) (cat : Char → Bool) (t : List Char) (i : ℕ)
    (hi : i < t.length)
    (hdict : ∀ w ∈ S.words, w.head? ≠ some coeng)
    (hc : chAt t i = coeng) :
    ∀ e ∈ edges S cat t i, e.1 = i + 1 := by
  intro e he
  rw [edges] at he
  split at he
  · split at he
    · rcases List.mem_singleton.mp he with rfl; rfl
    · exact absurd he (List.not_mem_nil e)
  · rcases List.mem_append.mp he with he1 | hefb
    rcases List.mem_append.mp he1 with he2 | hedict
    rcases List.mem_append.mp he2 with heno | heacr
    · -- number / separator block: COENG is neither digit nor currency,
      -- so only the separator edge i -> i+1 can appear here
      split at heno
      · rename_i hcond
        rw [is_currency_start] at hcond
        rw [hc] at hcond
        have h1 : isDigitChar coeng = false := by decide
        have h2 : is_currency_symbol coeng = false := by decide
        rw [h1, h2] at hcond
        simp at hcond
      · split at heno
        · rcases List.mem_singleton.mp heno with rfl; rfl
        · exact absurd heno (List.not_mem_nil e)
    · -- acronym block: COENG is not in the base range
      split at heacr
      · rename_i hstart
        rw [is_acronym_start] at hstart
        split at hstart
        · exact absurd hstart (by simp)
        · split at hstart
          · exact absurd hstart (by simp)
          · rename_i hbase
            rw [hc] at hbase
            exact absurd (not_not.mp hbase) (by decide)
      · exact absurd heacr (List.not_mem_nil e)
    · -- dictionary block: no word starts with COENG
      rcases List.mem_filterMap.mp hedict with ⟨j, hj, hfj⟩
      have hj2 := (List.mem_range'_1.mp hj).1
      split at hfj
      · rename_i hmem
        have hhead := slice_head t i j hi (by omega)
        rw [hc] at hhead
        exact absurd hhead (hdict _ hmem)
      · exact Option.noConfusion hfj
    · -- fallback block: COENG is a Khmer char whose cluster length is 1
      rw [fallback_edge] at hefb
      have hcl : cluster_length t i = 1 := by
        rw [cluster_length, if_neg (by omega), if_pos]
        rw [hc]
        decide
      split at hefb
      · rw [hcl] at hefb
        split at hefb
        · rcases List.mem_singleton.mp hefb with rfl; rfl
        · exact absurd hefb (List.not_mem_nil e)
      · split at hefb
        · rcases List.mem_singleton.mp hefb with rfl; rfl
        · exact absurd hefb (List.not_mem_nil e)

/-! ### Relaxation invariants -/

theorem relax_length (i : ℕ) (dp : DPA) (e : ℕ × ℚ) :
    (relax i dp e).length = dp.length := by
  rw [relax]
  split
  · rfl
  · split
    · exact List.length_set dp e.1 _
    · rfl

theorem relax_cell_some (i : ℕ) (dp : DPA) (e : ℕ × ℚ) (k : ℕ)
    (h : (cell dp k).isSome) : ((cell (relax i dp e) k)).isSome := by
  rw [relax]
  split
  · exact h
  · split
    · by_cases hk : e.1 = k
      · subst hk
        rename_i hlt
        rw [cell_set_self _ _ _ ?_]
        · rfl
        · by_contra hlen
          rw [cell, List.getD_eq_getElem?_getD, List.getElem?_eq_none (by omega)] at h
          simp at h
      · rw [cell_set_ne _ _ _ _ hk]
        exact h
    · exact h

theorem relax_cell_lower (i : ℕ) (dp : DPA) (e : ℕ × ℚ) (k : ℕ) (hk : k ≤ i)
    (he : (e.1 = i ∧ e.2 = 1) ∨ i < e.1) :
    cell (relax i dp e) k = cell dp k := by
  rw [relax]
  split
  · rfl
  · rename_i ci po hcell
    split
    · rcases he with ⟨h1, h2⟩ | h1
      · rename_i hlt
        rw [h1, hcell] at hlt
        rw [h2, qadd_eq] at hlt
        simp only [costLt, decide_eq_true_eq] at hlt
        exact absurd hlt (by linarith)
      · exact cell_set_ne _ _ _ _ (by omega)
    · rfl

/-- The stored-pointer invariant of the dp array, parameterized by a
relation R between the stored back pointer and its cell index: every set
cell at a positive index has a back pointer p with R p k whose own cell
is set.  (Index 0 is exempt: dp[0] starts as (0.0, -1).) -/
def StoredOK (R : ℕ → ℕ → Prop) (dp : DPA) : Prop :=
  ∀ k q po, cell dp k = some (q, po) → 0 < k →
    ∃ p, po = some p ∧ R p k ∧ (cell dp p).isSome

theorem StoredOK_dp_init (R : ℕ → ℕ → Prop) (n : ℕ) : StoredOK R (dp_init n) := by
  intro k q po hk hpos
  rw [cell_dp_init_pos n k hpos] at hk
  exact Option.noConfusion hk

theorem relax_StoredOK (R : ℕ → ℕ → Prop) (i : ℕ) (dp : DPA) (e : ℕ × ℚ)
    (hcase : (e.1 = i ∧ e.2 = 1) ∨ (i < e.1 ∧ R i e.1))
    (hok : StoredOK R dp) : StoredOK R (relax i dp e) := by
  rw [relax]
  split
  · exact hok
  · rename_i ci po0 hcell
    split
    · rename_i hlt
      rcases hcase with ⟨h1, h2⟩ | ⟨h1, h2⟩
      · rw [h1, hcell] at hlt
        rw [h2, qadd_eq] at hlt
        simp only [costLt, decide_eq_true_eq] at hlt
        exact absurd hlt (by linarith)
      · by_cases hlen : e.1 < dp.length
        · intro k q po hk hpos
          by_cases hke : k = e.1
          · subst hke
            rw [cell_set_self _ _ _ hlen] at hk
            injection hk with hk1
            refine ⟨i, ?_, h2, ?_⟩
            · exact (congrArg Prod.snd hk1).symm
            · rw [cell_set_ne _ _ _ _ (by omega)]
              rw [hcell]; rfl
          · rw [cell_set_ne _ _ _ _ (fun h => hke h.symm)] at hk
            rcases hok k q po hk hpos with ⟨p, hp1, hp2, hp3⟩
            refine ⟨p, hp1, hp2, ?_⟩
            by_cases hpe : p = e.1
            · subst hpe
              rw [cell_set_self _ _ _ hlen]; rfl
            · rw [cell_set_ne _ _ _ _ (fun h => hpe h.symm)]
              exact hp3
        · rw [List.set_eq_of_length_le (by omega)]
          exact hok
    · exact hok

theorem relax_target_some (i : ℕ) (dp : DPA) (j : ℕ) (c : ℚ)
    (hi : (cell dp i).isSome) (hj : j < dp.length) :
    (cell (relax i dp (j, c)) j).isSome := by
  rw [relax]
  split
  · rename_i hcell
    rw [hcell] at hi
    exact absurd hi (by simp)
  · rename_i ci po hcell
    split
    · rw [cell_set_self _ _ _ hj]; rfl
    · rename_i hlt
      rcases hval : cell dp j with _ | val
      · rw [hval] at hlt
        exact absurd rfl hlt
      · simp [hval]

theorem relaxList_length (i : ℕ) :
    ∀ (es : List (ℕ × ℚ)) (dp : DPA), (es.foldl (relax i) dp).length = dp.length := by
  intro es
  induction es with
  | nil => intro dp; rfl
  | cons e rest ih =>
    intro dp
    rw [List.foldl_cons, ih, relax_length]

theorem relaxList_cell_some (i k : ℕ) :
    ∀ (es : List (ℕ × ℚ)) (dp : DPA), (cell dp k).isSome →
      (cell (es.foldl (relax i) dp) k).isSome := by
  intro es
  induction es with
  | nil => intro dp h; exact h
  | cons e rest ih =>
    intro dp h
    rw [List.foldl_cons]
    exact ih _ (relax_cell_some i dp e k h)

theorem relaxList_target_some (i j : ℕ) (c : ℚ) :
    ∀ (es : List (ℕ × ℚ)) (dp : DPA), (j, c) ∈ es → j < dp.length →
      (cell dp i).isSome → (cell (es.foldl (relax i) dp) j).isSome := by
  intro es
  induction es with
  | nil => intro dp h; exact absurd h (List.not_mem_nil _)
  | cons e rest ih =>
    intro dp hmem hj hi
    rw [List.foldl_cons]
    rcases List.mem_cons.mp hmem with rfl | hmem2
    · exact relaxList_cell_some i j rest _ (relax_target_some i dp j c hi hj)
    · exact ih _ hmem2 (by rw [relax_length]; exact hj) (relax_cell_some i dp e i hi)

theorem relaxList_lower (i k : ℕ) (hk : k ≤ i) :
    ∀ (es : List (ℕ × ℚ)) (dp : DPA),
      (∀ e ∈ es, (e.1 = i ∧ e.2 = 1) ∨ i < e.1) →
      cell (es.foldl (relax i) dp) k = cell dp k := by
  intro es
  induction es with
  | nil => intro dp _; rfl
  | cons e rest ih =>
    intro dp hes
    rw [List.foldl_cons, ih _ (fun e2 h2 => hes e2 (List.mem_cons_of_mem _ h2)),
      relax_cell_lower i dp e k hk (hes e (List.mem_cons_self _ _))]

theorem relaxList_StoredOK (R : ℕ → ℕ → Prop) (i : ℕ) :
    ∀ (es : List (ℕ × ℚ)) (dp : DPA),
      (∀ e ∈ es, (e.1 = i ∧ e.2 = 1) ∨ (i < e.1 ∧ R i e.1)) →
      StoredOK R dp → StoredOK R (es.foldl (relax i) dp) := by
  intro es
  induction es with
  | nil => intro dp _ h; exact h
  | cons e rest ih =>
    intro dp hes hok
    rw [List.foldl_cons]
    exact ih _ (fun e2 h2 => hes e2 (List.mem_cons_of_mem _ h2))
      (relax_StoredOK R i dp e (hes e (List.mem_cons_self _ _)) hok)

/-! ### stepDP and runDP lemmas -/

theorem stepDP_length (S : Seg) (cat : Char → Bool) (t : List Char) (dp : DPA) (i : ℕ) :
    (stepDP S cat t dp i).length = dp.length := by
  rw [stepDP]
  split
  · rfl
  · exact relaxList_length i _ dp

theorem stepDP_cell_some (S : Seg) (cat : Char → Bool) (t : List Char) (dp : DPA)
    (i k : ℕ) (h : (cell dp k).isSome) : (cell (stepDP S cat t dp i) k).isSome := by
  rw [stepDP]
  split
  · exact h
  · exact relaxList_cell_some i k _ dp h

theorem stepDP_lower (S : Seg) (cat : Char → Bool) (t : List Char) (dp : DPA)
    (i k : ℕ) (hi : i < t.length) (hk : k ≤ i) :
    cell (stepDP S cat t dp i) k = cell dp k := by
  rw [stepDP]
  split
  · rfl
  · exact relaxList_lower i k hk _ dp (edges_target S cat t i hi)

theorem stepDP_StoredOK_lt (S : Seg) (cat : Char → Bool) (t : List Char) (dp : DPA)
    (i : ℕ) (hi : i < t.length) (hok : StoredOK (· < ·) dp) :
    StoredOK (· < ·) (stepDP S cat t dp i) := by
  rw [stepDP]
  split
  · exact hok
  · refine relaxList_StoredOK _ i _ dp (fun e he => ?_) hok
    rcases edges_target S cat t i hi e he with h | h
    · exact Or.inl h
    · exact Or.inr ⟨h, h⟩

theorem stepDP_progress (S : Seg) (cat : Char → Bool) (t : List Char) (dp : DPA)
    (i : ℕ) (hi : i < t.length) (hlen : dp.length = t.length + 1)
    (h : (cell dp i).isSome) :
    ∃ tgt, i < tgt ∧ tgt ≤ t.length ∧ (cell (stepDP S cat t dp i) tgt).isSome := by
  rcases edges_progress S cat t i hi with ⟨e, hmem, h1, h2⟩
  refine ⟨e.1, h1, h2, ?_⟩
  rw [stepDP]
  split
  · rename_i hcell
    rw [hcell] at h
    exact absurd h (by simp)
  · exact relaxList_target_some i e.1 e.2 _ dp (by simpa using hmem) (by omega) h

theorem runDP_length (S : Seg) (cat : Char → Bool) (t : List Char) :
    ∀ k, (runDP S cat t k).length = t.length + 1 := by
  intro k
  induction k with
  | zero => exact dp_init_length t.length
  | succ k ih => rw [runDP, stepDP_length]; exact ih

theorem runDP_cell_some (S : Seg) (cat : Char → Bool) (t : List Char) (j : ℕ) :
    ∀ m k, m ≤ k → (cell (runDP S cat t m) j).isSome →
      (cell (runDP S cat t k) j).isSome := by
  intro m k hmk
  induction k with
  | zero =>
    intro h
    rw [Nat.le_zero.mp hmk] at h
    exact h
  | succ k ih =>
    intro h
    rcases Nat.lt_or_ge m (k + 1) with hlt | hge
    · rw [runDP]
      exact stepDP_cell_some S cat t _ k j (ih (by omega) h)
    · have : m = k + 1 := by omega
      rw [this] at h
      exact h

theorem runDP_stable (S : Seg) (cat : Char → Bool) (t : List Char) :
    ∀ m, m ≤ t.length → ∀ k, k ≤ m →
      cell (runDP S cat t m) k = cell (runDP S cat t k) k := by
  intro m
  induction m with
  | zero => intro _ k hk; rw [Nat.le_zero.mp hk]
  | succ m ih =>
    intro hm k hk
    rcases Nat.lt_or_ge k (m + 1) with hlt | hge
    · rw [runDP, stepDP_lower S cat t _ m k (by omega) (by omega)]
      exact ih (by omega) k (by omega)
    · have : k = m + 1 := by omega
      subst this
      rfl

theorem runDP_StoredOK_lt (S : Seg) (cat : Char → Bool) (t : List Char) :
    ∀ m, m ≤ t.length → StoredOK (· < ·) (runDP S cat t m) := by
  intro m
  induction m with
  | zero => exact fun _ => StoredOK_dp_init _ _
  | succ m ih =>
    intro hm
    rw [runDP]
    exact stepDP_StoredOK_lt S cat t _ m (by omega) (ih (by omega))

theorem runDP_reach (S : Seg) (cat : Char → Bool) (t : List Char) :
    ∀ (d i : ℕ), i ≤ t.length → t.length - i ≤ d →
      (cell (runDP S cat t i) i).isSome →
      (cell (runDP S cat t t.length) t.length).isSome := by
  intro d
  induction d with
  | zero =>
    intro i hin hd h
    have : i = t.length := by omega
    subst this
    exact h
  | succ d ih =>
    intro i hin hd h
    rcases Nat.lt_or_ge i t.length with hlt | hge
    · have hprog := stepDP_progress S cat t (runDP S cat t i) i hlt
        (runDP_length S cat t i) h
      rcases hprog with ⟨tgt, h1, h2, h3⟩
      rw [show stepDP S cat t (runDP S cat t i) i = runDP S cat t (i + 1) from rfl] at h3
      have h4 : (cell (runDP S cat t tgt) tgt).isSome := by
        have h5 := runDP_cell_some S cat t tgt (i + 1) tgt (by omega) h3
        exact h5
      exact ih tgt h2 (by omega) h4
    · have : i = t.length := by omega
      subst this
      exact h

theorem runDP_final_some (S : Seg) (cat : Char → Bool) (t : List Char) :
    (cell (runDP S cat t t.length) t.length).isSome := by
  have h0 : (cell (runDP S cat t 0) 0).isSome := by
    rw [runDP, cell_dp_init_zero]
    rfl
  exact runDP_reach S cat t t.length 0 (by omega) (by omega) h0

/-! ### Backtracking lemmas -/

theorem backtrack_total (t : List Char) (dp : DPA) (hok : StoredOK (· < ·) dp) :
    ∀ (fuel curr : ℕ), curr ≤ fuel → (cell dp curr).isSome →
      ∃ toks, backtrack t dp fuel curr = some toks := by
  intro fuel
  induction fuel with
  | zero =>
    intro curr hc h
    refine ⟨[], ?_⟩
    rw [backtrack, if_pos (by omega)]
  | succ f ih =>
    intro curr hc h
    by_cases h0 : curr = 0
    · exact ⟨[], by rw [backtrack, if_pos h0]⟩
    · rcases hcell : cell dp curr with _ | ⟨q, po⟩
      · rw [hcell] at h; exact absurd h (by simp)
      · rcases hok curr q po hcell (by omega) with ⟨p, rfl, hplt, hpsome⟩
        rcases ih p (by omega) hpsome with ⟨rest, hrest⟩
        refine ⟨rest ++ [slice t p curr], ?_⟩
        rw [backtrack, if_neg h0, hcell]
        show Option.map (fun toks => toks ++ [slice t p curr]) (backtrack t dp f p)
          = some (rest ++ [slice t p curr])
        rw [hrest]
        rfl

theorem backtrack_props (t : List Char) (dp : DPA) (hok : StoredOK (· < ·) dp) :
    ∀ (fuel curr : ℕ) (toks : List (List Char)), curr ≤ t.length →
      backtrack t dp fuel curr = some toks →
      toks.flatten = t.take curr ∧ ∀ x ∈ toks, x ≠ [] := by
  intro fuel
  induction fuel with
  | zero =>
    intro curr toks hc hb
    rw [backtrack] at hb
    split at hb
    · injection hb with hb1
      subst hb1
      rename_i h0
      subst h0
      exact ⟨by simp, by simp⟩
    · exact Option.noConfusion hb
  | succ f ih =>
    intro curr toks hc hb
    rw [backtrack] at hb
    split at hb
    · injection hb with hb1
      subst hb1
      rename_i h0
      subst h0
      exact ⟨by simp, by simp⟩
    · rename_i h0
      rcases hcell : cell dp curr with _ | ⟨q, po⟩ <;> rw [hcell] at hb
      · exact Option.noConfusion hb
      · rcases po with _ | p
        · exact Option.noConfusion hb
        · rcases hok curr q (some p) hcell (by omega) with ⟨p2, hp2, hplt, hpsome⟩
          injection hp2 with hp2e
          subst hp2e
          have hb2 : Option.map (fun toks => toks ++ [slice t p curr])
              (backtrack t dp f p) = some toks := hb
          rcases hrest : backtrack t dp f p with _ | rest <;> rw [hrest] at hb2
          · exact Option.noConfusion hb2
          · injection hb2 with hb1
            subst hb1
            rcases ih p rest (by omega) hrest with ⟨hflat, hne⟩
            constructor
            · rw [List.flatten_append, hflat]
              simp only [List.flatten_cons, List.flatten_nil, List.append_nil]
              exact take_append_slice t p curr (by omega)
            · intro x hx
              rcases List.mem_append.mp hx with hx1 | hx2
              · exact hne x hx1
              · rcases List.mem_singleton.mp hx2 with rfl
                exact slice_ne_nil t p curr (by omega) hplt

theorem backtrack_tokens (t : List Char) (dp : DPA) (P : List Char → Prop)
    (hP : ∀ p c q, cell dp c = some (q, some p) → 0 < c → p < c → c ≤ t.length →
      P (slice t p c))
    (hok : StoredOK (· < ·) dp) :
    ∀ (fuel curr : ℕ) (toks : List (List Char)), curr ≤ t.length →
      backtrack t dp fuel curr = some toks → ∀ x ∈ toks, P x := by
  intro fuel
  induction fuel with
  | zero =>
    intro curr toks hc hb
    rw [backtrack] at hb
    split at hb
    · injection hb with hb1
      subst hb1
      simp
    · exact Option.noConfusion hb
  | succ f ih =>
    intro curr toks hc hb
    rw [backtrack] at hb
    split at hb
    · injection hb with hb1
      subst hb1
      simp
    · rename_i h0
      rcases hcell : cell dp curr with _ | ⟨q, po⟩ <;> rw [hcell] at hb
      · exact Option.noConfusion hb
      · rcases po with _ | p
        · exact Option.noConfusion hb
        · rcases hok curr q (some p) hcell (by omega) with ⟨p2, hp2, hplt, hpsome⟩
          injection hp2 with hp2e
          subst hp2e
          have hb2 : Option.map (fun toks => toks ++ [slice t p curr])
              (backtrack t dp f p) = some toks := hb
          rcases hrest : backtrack t dp f p with _ | rest <;> rw [hrest] at hb2
          · exact Option.noConfusion hb2
          · injection hb2 with hb1
            subst hb1
            intro x hx
            rcases List.mem_append.mp hx with hx1 | hx2
            · exact ih p rest (by omega) hrest x hx1
            · rcases List.mem_singleton.mp hx2 with rfl
              exact hP p curr q hcell (by omega) hplt hc

/-! ### Raw segmentation properties -/

theorem raw_segment_some (S : Seg) (cat : Char → Bool) (s : List Char) :
    ∃ toks, raw_segment S cat s = some toks ∧
      toks.flatten = seg_text s ∧ ∀ x ∈ toks, x ≠ [] := by
  rw [raw_segment]
  by_cases h0 : (seg_text s).length = 0
  · refine ⟨[], by rw [if_pos h0], ?_, by simp⟩
    rw [List.flatten_nil, List.length_eq_zero.mp h0]
  · rw [if_neg h0]
    have hok := runDP_StoredOK_lt S cat (seg_text s) (seg_text s).length le_rfl
    have hsome := runDP_final_some S cat (seg_text s)
    rcases backtrack_total (seg_text s) _ hok (seg_text s).length (seg_text s).length
      le_rfl hsome with ⟨toks, htoks⟩
    rcases backtrack_props (seg_text s) _ hok (seg_text s).length (seg_text s).length
      toks le_rfl htoks with ⟨hflat, hne⟩
    exact ⟨toks, htoks, by rw [hflat, List.take_length], hne⟩

/-! ### Rule engine preservation lemmas -/

theorem merge2_decomp (segs : List (List Char)) (k : ℕ) (h : k + 1 < segs.length) :
    ∃ l1 x y l2, segs = l1 ++ x :: y :: l2 ∧ l1.length = k ∧
      merge2 segs k = l1 ++ (x ++ y) :: l2 := by
  induction k generalizing segs with
  | zero =>
    match segs with
    | [] => simp at h
    | [x] => simp at h
    | x :: y :: l2 =>
      refine ⟨[], x, y, l2, by simp, rfl, ?_⟩
      simp [merge2, List.eraseIdx]
  | succ k ih =>
    match segs with
    | [] => simp at h
    | a :: rest =>
      have h2 : k + 1 < rest.length := by simpa using h
      rcases ih rest h2 with ⟨l1, x, y, l2, hdec, hlen, hmerge⟩
      refine ⟨a :: l1, x, y, l2, by simp [hdec], by simp [hlen], ?_⟩
      rw [merge2] at hmerge ⊢
      have hset : (a :: rest).set (k + 1) (((a :: rest).getD (k + 1) [])
          ++ ((a :: rest).getD (k + 2) [])) = a :: rest.set k
          ((rest.getD k []) ++ (rest.getD (k + 1) [])) := by
        simp [List.getD_eq_getElem?_getD]
      rw [hset]
      rw [show ∀ (b : List Char) (l : List (List Char)) (m : ℕ),
        (b :: l).eraseIdx (m + 1) = b :: l.eraseIdx m from fun b l m => rfl]
      rw [hmerge]
      simp

theorem applyRulesGo_props (sep : List Char → Bool) (rules : List Rule) :
    ∀ (fuel : ℕ) (segs : List (List Char)) (i : ℕ) (r : List (List Char)),
      applyRulesGo sep rules fuel segs i = some r →
      r.flatten = segs.flatten ∧ ((∀ x ∈ segs, x ≠ []) → ∀ x ∈ r, x ≠ []) := by
  intro fuel
  induction fuel with
  | zero =>
    intro segs i r h
    rw [applyRulesGo] at h
    split at h
    · exact Option.noConfusion h
    · injection h with h1
      subst h1
      exact ⟨rfl, fun h x => h x⟩
  | succ f ih =>
    intro segs i r h
    rw [applyRulesGo] at h
    split at h
    · rename_i hlt
      rcases hfa : find_action sep rules segs i with _ | a <;> rw [hfa] at h
      · exact ih segs (i + 1) r h
      · have happ := find_action_applicable sep rules segs i a hfa
        cases a with
        | merge_next =>
          have hnext : i + 1 < segs.length := by simpa [action_applicable] using happ
          rcases merge2_decomp segs i hnext with ⟨l1, x, y, l2, hdec, hlen, hmerge⟩
          rcases ih _ i r h with ⟨hflat, hne⟩
          constructor
          · rw [hflat, hmerge, hdec]; simp
          · intro hs
            refine hne ?_
            intro z hz
            rw [hmerge] at hz
            rcases List.mem_append.mp hz with hz1 | hz2
            · exact hs z (by rw [hdec]; exact List.mem_append_left _ hz1)
            · rcases List.mem_cons.mp hz2 with rfl | hz3
              · have hx : x ≠ [] := hs x (by rw [hdec]; simp)
                simp [hx]
              · exact hs z (by rw [hdec]; simp [hz3])
        | merge_prev =>
          have hprev : 0 < i := by simpa [action_applicable] using happ
          have hnext : (i - 1) + 1 < segs.length := by omega
          rcases merge2_decomp segs (i - 1) hnext with ⟨l1, x, y, l2, hdec, hlen, hmerge⟩
          rcases ih _ (i - 1) r h with ⟨hflat, hne⟩
          constructor
          · rw [hflat, hmerge, hdec]; simp
          · intro hs
            refine hne ?_
            intro z hz
            rw [hmerge] at hz
            rcases List.mem_append.mp hz with hz1 | hz2
            · exact hs z (by rw [hdec]; exact List.mem_append_left _ hz1)
            · rcases List.mem_cons.mp hz2 with rfl | hz3
              · have hx : x ≠ [] := hs x (by rw [hdec]; simp)
                simp [hx]
              · exact hs z (by rw [hdec]; simp [hz3])
        | keep => exact ih segs (i + 1) r h
    · injection h with h1
      subst h1
      exact ⟨rfl, fun h x => h x⟩

theorem apply_rules_props (sep : List Char → Bool) (rules : List Rule)
    (segs : List (List Char)) :
    (apply_rules sep rules segs).flatten = segs.flatten ∧
    ((∀ x ∈ segs, x ≠ []) → ∀ x ∈ apply_rules sep rules segs, x ≠ []) := by
  rcases c9_apply_rules_terminates sep rules segs with ⟨r, hr, hr2⟩
  rw [hr2]
  exact applyRulesGo_props sep rules _ segs 0 r hr

/-! ### Collapser preservation lemmas -/

theorem collapse_go_flatten (known : List Char → Bool) :
    ∀ (l buf : List (List Char)),
      (collapse_go known buf l).flatten = buf.flatten ++ l.flatten := by
  intro l
  induction l with
  | nil =>
    intro buf
    rw [collapse_go]
    split
    · rename_i hbuf
      rw [List.isEmpty_iff.mp hbuf]
      simp
    · simp
  | cons s rest ih =>
    intro buf
    rw [collapse_go]
    split
    · rename_i hknown
      rw [List.flatten_append]
      rw [List.flatten_cons, ih []]
      split
      · rename_i hbuf
        rw [List.isEmpty_iff.mp hbuf]
        simp
      · simp
    · rw [ih (buf ++ [s])]
      simp

theorem flatten_ne_nil (buf : List (List Char)) (hb : ¬ buf.isEmpty)
    (hne : ∀ x ∈ buf, x ≠ []) : buf.flatten ≠ [] := by
  match buf with
  | [] => simp at hb
  | b :: rest =>
    have hbne : b ≠ [] := hne b (List.mem_cons_self _ _)
    rw [List.flatten_cons]
    intro h
    rcases List.append_eq_nil.mp h with ⟨h1, _⟩
    exact hbne h1

theorem collapse_go_ne_nil (known : List Char → Bool) :
    ∀ (l buf : List (List Char)), (∀ x ∈ l, x ≠ []) → (∀ x ∈ buf, x ≠ []) →
      ∀ x ∈ collapse_go known buf l, x ≠ [] := by
  intro l
  induction l with
  | nil =>
    intro buf _ hbuf x hx
    rw [collapse_go] at hx
    split at hx
    · simp at hx
    · rename_i hbne
      rcases List.mem_singleton.mp hx with rfl
      exact flatten_ne_nil buf hbne hbuf
  | cons s rest ih =>
    intro buf hl hbuf x hx
    rw [collapse_go] at hx
    split at hx
    · rcases List.mem_append.mp hx with hx1 | hx2
      · split at hx1
        · simp at hx1
        · rename_i hbne
          rcases List.mem_singleton.mp hx1 with rfl
          exact flatten_ne_nil buf hbne hbuf
      · rcases List.mem_cons.mp hx2 with rfl | hx3
        · exact hl x (List.mem_cons_self _ _)
        · exact ih [] (fun z hz => hl z (List.mem_cons_of_mem _ hz)) (by simp) x hx3
    · exact ih (buf ++ [s]) (fun z hz => hl z (List.mem_cons_of_mem _ hz))
        (fun z hz => by
          rcases List.mem_append.mp hz with hz1 | hz2
          · exact hbuf z hz1
          · rcases List.mem_singleton.mp hz2 with rfl
            exact hl z (List.mem_cons_self _ _)) x hx

/-- Claim C1 (amended): for every word table, category function, rule
table and input, segment returns tokens whose concatenation is exactly
normalize(s) with every U+200B removed. -/
theorem c1_concat_reconstructs (S : Seg) (cat : Char → Bool) (rules : List Rule)
    (s : List Char) :
    ∃ toks, segment S cat rules s = some toks ∧
      toks.flatten = (normalize s).filter (fun c => c ≠ zws) := by
  rcases raw_segment_some S cat s with ⟨raw, hraw, hflat, hne⟩
  refine ⟨collapse_go (is_known S cat) []
    (apply_rules (is_separator_seg cat) rules raw), ?_, ?_⟩
  · rw [segment, hraw]
    rfl
  · rw [collapse_go_flatten, (apply_rules_props (is_separator_seg cat) rules raw).1,
      hflat]
    rfl

/-- Claim C2: segment returns normally on every input: the repair edge
(when the gate fires) or the fallback edge (otherwise) always relaxes an
outgoing edge of span at least 1 from every reachable position, so
dp[n] always becomes finite, the stored back pointers strictly decrease
and backtracking reaches 0; the ValueError branch is unreachable. -/
theorem c2_segment_total (S : Seg) (cat : Char → Bool) (rules : List Rule)
    (s : List Char) : ∃ toks, segment S cat rules s = some toks := by
  rcases raw_segment_some S cat s with ⟨raw, hraw, -, -⟩
  exact ⟨_, by rw [segment, hraw]; rfl⟩

theorem mem_flatten_infix (x : List Char) :
    ∀ l : List (List Char), x ∈ l → x <:+: l.flatten := by
  intro l
  induction l with
  | nil => intro h; simp at h
  | cons a rest ih =>
    intro h
    rcases List.mem_cons.mp h with rfl | h2
    · exact ⟨[], rest.flatten, by simp⟩
    · rcases ih h2 with ⟨u, v, huv⟩
      exact ⟨a ++ u, v, by rw [List.flatten_cons, ← huv]; simp⟩

/-- Claim C10: every stored back pointer p of dp[k] satisfies p < k (the
zero-length currency edge is discarded by the strict cost comparison),
so backtracking strictly decreases and terminates, and every token
returned by segment is a non-empty contiguous substring of the
normalized, U+200B-stripped text. -/
theorem c10_dp_well_formed (S : Seg) (cat : Char → Bool) (rules : List Rule)
    (s : List Char) :
    (∀ k q p,
      cell (runDP S cat (seg_text s) (seg_text s).length) k = some (q, some p) →
      p < k) ∧
    ∃ toks, segment S cat rules s = some toks ∧
      ∀ x ∈ toks, x ≠ [] ∧ x <:+: seg_text s := by
  constructor
  · intro k q p hcell
    rcases Nat.eq_zero_or_pos k with rfl | hk
    · rw [runDP_stable S cat (seg_text s) (seg_text s).length le_rfl 0 (by omega),
        runDP, cell_dp_init_zero] at hcell
      injection hcell with h1
      exact Option.noConfusion (congrArg Prod.snd h1)
    · rcases runDP_StoredOK_lt S cat (seg_text s) (seg_text s).length le_rfl
        k q (some p) hcell hk with ⟨p2, hp2, hlt, -⟩
      injection hp2 with hp2e
      subst hp2e
      exact hlt
  · rcases raw_segment_some S cat s with ⟨raw, hraw, hflat, hne⟩
    refine ⟨collapse_go (is_known S cat) []
      (apply_rules (is_separator_seg cat) rules raw), ?_, ?_⟩
    · rw [segment, hraw]; rfl
    · intro x hx
      have hflat2 : (collapse_go (is_known S cat) []
          (apply_rules (is_separator_seg cat) rules raw)).flatten = seg_text s := by
        rw [collapse_go_flatten, (apply_rules_props (is_separator_seg cat) rules raw).1,
          hflat]
        rfl
      refine ⟨?_, hflat2 ▸ mem_flatten_infix x _ hx⟩
      exact collapse_go_ne_nil (is_known S cat) _ []
        ((apply_rules_props (is_separator_seg cat) rules raw).2 hne) (by simp) x hx

/-! ### COENG-initial tokens in the raw segmentation (claim C8) -/

theorem stepDP_StoredOK_coeng (S : Seg) (cat : Char → Bool) (t : List Char)
    (dp : DPA) (i : ℕ) (hi : i < t.length)
    (hdict : ∀ w ∈ S.words, w.head? ≠ some coeng)
    (hok : StoredOK (fun p k => p < k ∧ (chAt t p = coeng → k = p + 1)) dp) :
    StoredOK (fun p k => p < k ∧ (chAt t p = coeng → k = p + 1))
      (stepDP S cat t dp i) := by
  rw [stepDP]
  split
  · exact hok
  · refine relaxList_StoredOK _ i _ dp (fun e he => ?_) hok
    rcases edges_target S cat t i hi e he with h | h
    · exact Or.inl h
    · exact Or.inr ⟨h, h, fun hc => edges_coeng S cat t i hi hdict hc e he⟩

theorem runDP_StoredOK_coeng (S : Seg) (cat : Char → Bool) (t : List Char)
    (hdict : ∀ w ∈ S.words, w.head? ≠ some coeng) :
    ∀ m, m ≤ t.length →
      StoredOK (fun p k => p < k ∧ (chAt t p = coeng → k = p + 1))
        (runDP S cat t m) := by
  intro m
  induction m with
  | zero => exact fun _ => StoredOK_dp_init _ _
  | succ m ih =>
    intro hm
    rw [runDP]
    exact stepDP_StoredOK_coeng S cat t _ m (by omega) hdict (ih (by omega))

/-- Claim C8 (amended): when no dictionary word begins with COENG, no
token of the raw Viterbi segmentation begins with COENG unless it has
length 1: every edge leaving a position whose character is COENG (the
repair edge, the separator edge or the one-character fallback) spans
exactly one character, and the dictionary offers no edge there. -/
theorem c8_raw_no_coeng_start (S : Seg) (cat : Char → Bool) (s : List Char)
    (toks : List (List Char))
    (hdict : ∀ w ∈ S.words, w.head? ≠ some coeng)
    (hraw : raw_segment S cat s = some toks) :
    ∀ x ∈ toks, x.head? = some coeng → x.length = 1 := by
  rw [raw_segment] at hraw
  by_cases h0 : (seg_text s).length = 0
  · rw [if_pos h0] at hraw
    injection hraw with h1
    subst h1
    simp
  · rw [if_neg h0] at hraw
    have hok8 := runDP_StoredOK_coeng S cat (seg_text s) hdict (seg_text s).length le_rfl
    have hoklt := runDP_StoredOK_lt S cat (seg_text s) (seg_text s).length le_rfl
    refine backtrack_tokens (seg_text s) _
      (fun x => x.head? = some coeng → x.length = 1) ?_ hoklt
      (seg_text s).length (seg_text s).length toks le_rfl hraw
    intro p c q hcell h0c hpc hcle hhead
    rcases hok8 c q (some p) hcell h0c with ⟨p2, hp2, ⟨-, hco⟩, -⟩
    injection hp2 with hp2e
    subst hp2e
    have hplen : p < (seg_text s).length := by omega
    rw [slice_head (seg_text s) p c hplen hpc] at hhead
    injection hhead with hchar
    have hc1 : c = p + 1 := hco hchar
    subst hc1
    rw [slice, List.length_take, List.length_drop]
    omega

/-- Claim C8 witness: raw segmentation of two stray COENG yields two
single-character tokens, each satisfying the amended property. -/
theorem c8_raw_no_coeng_start_witness :
    raw_segment initSeg catStd [coeng, coeng] = some [[coeng], [coeng]] ∧
    ∀ x ∈ [[coeng], [coeng]], x.head? = some coeng → x.length = 1 :=
  ⟨by decide,
   c8_raw_no_coeng_start initSeg catStd [coeng, coeng] [[coeng], [coeng]]
     (by simp [initSeg]) (by decide)⟩

/-! ### Idempotence of the normalizer on COENG-free, U+17C1-free input
(claim C3) -/

theorem charType_ne_coengT (c : Char) (h : c.toNat ≠ 0x17D2) :
    get_char_type c ≠ CType.coengT := by
  rw [get_char_type]
  split <;> simp_all
  all_goals (split <;> simp_all)
  all_goals (split <;> simp_all)

theorem replace2_no_op (a b r : Char) :
    ∀ (n : ℕ) (l : List Char), l.length ≤ n → (∀ c ∈ l, c ≠ a) →
      replace2 a b r l = l := by
  intro n
  induction n with
  | zero =>
    intro l hl _
    rw [List.length_eq_zero.mp (Nat.le_zero.mp hl)]
    rfl
  | succ n ih =>
    intro l hl hne
    match l with
    | [] => rfl
    | [c] => rfl
    | c :: d :: rest =>
      rw [replace2, if_neg (fun hcd => hne c (List.mem_cons_self _ _) hcd.1),
        ih (d :: rest) (by simp only [List.length_cons] at hl ⊢; omega)
          (fun x hx => hne x (List.mem_cons_of_mem _ hx))]

theorem insertByKey_map_single (x : Char) :
    ∀ l : List Char,
      insertByKey [x] (l.map (fun m => [m])) = (insertChar x l).map (fun m => [m]) := by
  intro l
  induction l with
  | nil => rfl
  | cons y ys ih =>
    rw [List.map_cons, insertByKey, insertChar]
    by_cases h : charKey x ≤ charKey y
    · rw [if_pos (show sort_key [x] ≤ sort_key [y] from h), if_pos h]
      rfl
    · rw [if_neg (show ¬ sort_key [x] ≤ sort_key [y] from h), if_neg h,
        List.map_cons, ih]

theorem sortByKey_map_single (ms : List Char) :
    sortByKey (ms.map (fun m => [m])) = (csort ms).map (fun m => [m]) := by
  induction ms with
  | nil => rfl
  | cons m rest ih =>
    rw [List.map_cons, sortByKey, csort, ih, insertByKey_map_single]

theorem flatten_map_single (l : List Char) :
    ((l.map (fun m => [m])).flatten) = l := by
  induction l with
  | nil => rfl
  | cons c rest ih => simp [ih]

theorem renderItem_clus (b : Char) (ms : List Char) :
    renderItem (NItem.clus b ms) = b :: csort ms := by
  rw [renderItem, sort_cluster, sortByKey_map_single, flatten_map_single]
  rfl

theorem insertChar_eq_orderedInsert (x : Char) :
    ∀ l : List Char,
      insertChar x l = List.orderedInsert (fun a b => charKey a ≤ charKey b) x l := by
  intro l
  induction l with
  | nil => rfl
  | cons y ys ih =>
    rw [insertChar, List.orderedInsert]
    by_cases h : charKey x ≤ charKey y
    · rw [if_pos h, if_pos h]
    · rw [if_neg h, if_neg h, ih]

theorem csort_eq_insertionSort (l : List Char) :
    csort l = List.insertionSort (fun a b => charKey a ≤ charKey b) l := by
  induction l with
  | nil => rfl
  | cons x xs ih =>
    rw [csort, List.insertionSort, ih, insertChar_eq_orderedInsert]

theorem csort_idem (l : List Char) : csort (csort l) = csort l := by
  haveI htot : IsTotal Char (fun a b => charKey a ≤ charKey b) :=
    ⟨fun a b => le_total _ _⟩
  haveI htr : IsTrans Char (fun a b => charKey a ≤ charKey b) :=
    ⟨fun a b c h1 h2 => le_trans h1 h2⟩
  rw [csort_eq_insertionSort, csort_eq_insertionSort]
  exact List.Sorted.insertionSort_eq
    (List.sorted_insertionSort (fun a b => charKey a ≤ charKey b) l)

theorem csort_mem (l : List Char) (x : Char) : x ∈ csort l ↔ x ∈ l := by
  rw [csort_eq_insertionSort]
  exact (List.perm_insertionSort (fun a b => charKey a ≤ charKey b) l).mem_iff

theorem flushC_nil (res : List (List Char)) : flushC res [] = res := rfl

theorem flushC_cons (res : List (List Char)) (p : List Char) (cur : List (List Char)) :
    flushC res (p :: cur) = res ++ [sort_cluster (p :: cur)] := rfl

theorem flushC_append_one (res cur : List (List Char)) (x : List Char) :
    flushC res (cur ++ [x]) = res ++ [sort_cluster (cur ++ [x])] := by
  rw [flushC, if_neg]
  simp

theorem isVS_of_type_vowel (c : Char) (h : get_char_type c = CType.vowel) :
    isVS c = true := by simp [isVS, h]

theorem isVS_of_type_sign (c : Char) (h : get_char_type c = CType.sign) :
    isVS c = true := by simp [isVS, h]

theorem isVS_false_of_type_base (c : Char) (h : get_char_type c = CType.base) :
    isVS c = false := by simp [isVS, h]

theorem isVS_false_of_type_other (c : Char) (h : get_char_type c = CType.other) :
    isVS c = false := by simp [isVS, h]

/-- On a non-COENG character the cluster loop behaves uniformly whether
or not more input follows: the one character case of norm_go is the
general step followed by the final flush. -/
theorem norm_go_step (c : Char) (rest : List Char) (cur res : List (List Char))
    (h : get_char_type c ≠ CType.coengT) :
    norm_go (c :: rest) cur res =
      if get_char_type c = CType.base then norm_go rest [[c]] (flushC res cur)
      else if isVS c then
        (if cur.isEmpty then norm_go rest cur (res ++ [[c]])
         else norm_go rest (cur ++ [[c]]) res)
      else norm_go rest [] (flushC res cur ++ [[c]]) := by
  match rest with
  | [] =>
    cases hty : get_char_type c
    case coengT => exact absurd hty h
    case base =>
      rw [if_pos rfl]
      rw [show norm_go [c] cur res = flushC res cur ++ [sort_cluster [[c]]] by
        rw [norm_go, hty]]
      rw [norm_go, flushC_cons]
    case vowel =>
      rw [if_neg (by simp), if_pos (isVS_of_type_vowel c hty)]
      rw [show norm_go [c] cur res = if cur.isEmpty then res ++ [[c]]
          else res ++ [sort_cluster (cur ++ [[c]])] by rw [norm_go, hty]]
      by_cases hcur : cur.isEmpty
      · rw [if_pos hcur, if_pos hcur, norm_go, flushC,
          if_pos hcur]
      · rw [if_neg hcur, if_neg hcur, norm_go, flushC_append_one]
    case sign =>
      rw [if_neg (by simp), if_pos (isVS_of_type_sign c hty)]
      rw [show norm_go [c] cur res = if cur.isEmpty then res ++ [[c]]
          else res ++ [sort_cluster (cur ++ [[c]])] by rw [norm_go, hty]]
      by_cases hcur : cur.isEmpty
      · rw [if_pos hcur, if_pos hcur, norm_go, flushC,
          if_pos hcur]
      · rw [if_neg hcur, if_neg hcur, norm_go, flushC_append_one]
    case other =>
      rw [if_neg (by simp), if_neg (by rw [isVS_false_of_type_other c hty]; simp)]
      rw [show norm_go [c] cur res = flushC res cur ++ [[c]] by rw [norm_go, hty]]
      rw [norm_go, flushC_nil]
  | d :: rest2 =>
    cases hty : get_char_type c
    case coengT => exact absurd hty h
    case base =>
      rw [if_pos rfl]
      rw [show norm_go (c :: d :: rest2) cur res
          = norm_go (d :: rest2) [[c]] (flushC res cur) by rw [norm_go, hty]]
    case vowel =>
      rw [if_neg (by simp), if_pos (isVS_of_type_vowel c hty)]
      rw [show norm_go (c :: d :: rest2) cur res
          = if cur.isEmpty then norm_go (d :: rest2) cur (res ++ [[c]])
            else norm_go (d :: rest2) (cur ++ [[c]]) res by rw [norm_go, hty]]
    case sign =>
      rw [if_neg (by simp), if_pos (isVS_of_type_sign c hty)]
      rw [show norm_go (c :: d :: rest2) cur res
          = if cur.isEmpty then norm_go (d :: rest2) cur (res ++ [[c]])
            else norm_go (d :: rest2) (cur ++ [[c]]) res by rw [norm_go, hty]]
    case other =>
      rw [if_neg (by simp), if_neg (by rw [isVS_false_of_type_other c hty]; simp)]
      rw [show norm_go (c :: d :: rest2) cur res
          = norm_go (d :: rest2) [] (flushC res cur ++ [[c]]) by rw [norm_go, hty]]

theorem norm_go_parse :
    ∀ t : List Char, (∀ c ∈ t, get_char_type c ≠ CType.coengT) →
      (∀ res, norm_go t [] res = res ++ (parseItems t).map renderItem) ∧
      (∀ (b : Char) (ms : List Char) (res : List (List Char)),
        (∀ m ∈ ms, isVS m = true) →
        norm_go t ([b] :: ms.map (fun m => [m])) res =
          res ++ [renderItem (NItem.clus b (ms ++ t.takeWhile isVS))]
            ++ (parseItems (t.dropWhile isVS)).map renderItem) := by
  intro t
  induction t with
  | nil =>
    intro _
    constructor
    · intro res
      rw [norm_go, flushC_nil, parseItems]
      simp
    · intro b ms res hms
      rw [norm_go, flushC_cons]
      simp [parseItems, renderItem]
  | cons c rest ih =>
    intro hnc
    have hc := hnc c (List.mem_cons_self _ _)
    have hrest : ∀ x ∈ rest, get_char_type x ≠ CType.coengT :=
      fun x hx => hnc x (List.mem_cons_of_mem _ hx)
    obtain ⟨ihC, ihO⟩ := ih hrest
    constructor
    · intro res
      rw [norm_go_step c rest [] res hc]
      cases hty : get_char_type c
      case coengT => exact absurd hty hc
      case base =>
        rw [if_pos rfl, flushC_nil]
        have h2 := ihO c [] res (by simp)
        simp only [List.map_nil] at h2
        rw [h2, parseItems, if_pos hty]
        simp
      case vowel =>
        rw [if_neg (by simp), if_pos (isVS_of_type_vowel c hty),
          if_pos (show ([] : List (List Char)).isEmpty = true from rfl)]
        rw [ihC (res ++ [[c]]), parseItems, if_neg (by rw [hty]; simp)]
        simp [renderItem]
      case sign =>
        rw [if_neg (by simp), if_pos (isVS_of_type_sign c hty),
          if_pos (show ([] : List (List Char)).isEmpty = true from rfl)]
        rw [ihC (res ++ [[c]]), parseItems, if_neg (by rw [hty]; simp)]
        simp [renderItem]
      case other =>
        rw [if_neg (by simp), if_neg (by rw [isVS_false_of_type_other c hty]; simp),
          flushC_nil]
        rw [ihC (res ++ [[c]]), parseItems, if_neg (by rw [hty]; simp)]
        simp [renderItem]
    · intro b ms res hms
      rw [norm_go_step c rest ([b] :: ms.map (fun m => [m])) res hc]
      cases hty : get_char_type c
      case coengT => exact absurd hty hc
      case base =>
        rw [if_pos rfl, flushC_cons]
        have h2 := ihO c [] (res ++ [sort_cluster ([b] :: ms.map (fun m => [m]))])
          (by simp)
        simp only [List.map_nil] at h2
        rw [h2, List.takeWhile_cons, if_neg (by rw [isVS_false_of_type_base c hty]; simp),
          List.dropWhile_cons, if_neg (by rw [isVS_false_of_type_base c hty]; simp),
          parseItems, if_pos hty]
        simp [renderItem]
      case vowel =>
        rw [if_neg (by simp), if_pos (isVS_of_type_vowel c hty), if_neg (by simp)]
        have hmap : ([b] :: ms.map (fun m => [m])) ++ [[c]]
            = [b] :: (ms ++ [c]).map (fun m => [m]) := by simp
        rw [hmap, ihO b (ms ++ [c]) res (by
          intro m hm
          rcases List.mem_append.mp hm with hm1 | hm2
          · exact hms m hm1
          · rcases List.mem_singleton.mp hm2 with rfl
            exact isVS_of_type_vowel m hty)]
        rw [List.takeWhile_cons, if_pos (isVS_of_type_vowel c hty),
          List.dropWhile_cons, if_pos (isVS_of_type_vowel c hty)]
        rw [show ms ++ c :: rest.takeWhile isVS = (ms ++ [c]) ++ rest.takeWhile isVS by
          simp]
      case sign =>
        rw [if_neg (by simp), if_pos (isVS_of_type_sign c hty), if_neg (by simp)]
        have hmap : ([b] :: ms.map (fun m => [m])) ++ [[c]]
            = [b] :: (ms ++ [c]).map (fun m => [m]) := by simp
        rw [hmap, ihO b (ms ++ [c]) res (by
          intro m hm
          rcases List.mem_append.mp hm with hm1 | hm2
          · exact hms m hm1
          · rcases List.mem_singleton.mp hm2 with rfl
            exact isVS_of_type_sign m hty)]
        rw [List.takeWhile_cons, if_pos (isVS_of_type_sign c hty),
          List.dropWhile_cons, if_pos (isVS_of_type_sign c hty)]
        rw [show ms ++ c :: rest.takeWhile isVS = (ms ++ [c]) ++ rest.takeWhile isVS by
          simp]
      case other =>
        rw [if_neg (by simp), if_neg (by rw [isVS_false_of_type_other c hty]; simp),
          flushC_cons]
        rw [ihC (res ++ [sort_cluster ([b] :: ms.map (fun m => [m]))] ++ [[c]])]
        rw [List.takeWhile_cons, if_neg (by rw [isVS_false_of_type_other c hty]; simp),
          List.dropWhile_cons, if_neg (by rw [isVS_false_of_type_other c hty]; simp),
          parseItems, if_neg (by rw [hty]; simp)]
        simp [renderItem]

theorem itemsWF_clus (flag : Bool) (b : Char) (ms : List Char) (rest : List NItem) :
    itemsWF flag (NItem.clus b ms :: rest) =
      (get_char_type b = CType.base ∧ (∀ m ∈ ms, isVS m = true) ∧ itemsWF true rest) := by
  cases flag <;> rfl

theorem itemsWF_lone (flag : Bool) (c : Char) (rest : List NItem) :
    itemsWF flag (NItem.lone c :: rest) =
      (get_char_type c ≠ CType.base ∧ (flag = true → isVS c = false) ∧
        itemsWF false rest) := by
  cases flag <;> rfl

theorem renderItems_cons (it : NItem) (rest : List NItem) :
    renderItems (it :: rest) = renderItem it ++ renderItems rest := rfl

theorem mem_takeWhile_true (p : Char → Bool) :
    ∀ (l : List Char) (x : Char), x ∈ l.takeWhile p → p x = true := by
  intro l
  induction l with
  | nil => intro x hx; exact absurd hx (List.not_mem_nil x)
  | cons y ys ih =>
    intro x hx
    rw [List.takeWhile_cons] at hx
    by_cases h : p y = true
    · rw [if_pos h] at hx
      rcases List.mem_cons.mp hx with rfl | hx2
      · exact h
      · exact ih x hx2
    · rw [if_neg h] at hx
      exact absurd hx (List.not_mem_nil x)

theorem head_dropWhile_not (p : Char → Bool) :
    ∀ (l : List Char) (c : Char), (l.dropWhile p).head? = some c → p c = false := by
  intro l
  induction l with
  | nil => intro c hc; exact absurd hc (by simp)
  | cons y ys ih =>
    intro c hc
    rw [List.dropWhile_cons] at hc
    by_cases h : p y = true
    · rw [if_pos h] at hc
      exact ih c hc
    · rw [if_neg h] at hc
      have hyc : y = c := Option.some.inj hc
      rw [← hyc]
      exact Bool.not_eq_true (p y) |>.mp h

theorem takeWhile_append_all (p : Char → Bool) :
    ∀ (l1 l2 : List Char), (∀ x ∈ l1, p x = true) →
      (l1 ++ l2).takeWhile p = l1 ++ l2.takeWhile p := by
  intro l1
  induction l1 with
  | nil => intro l2 _; rfl
  | cons y ys ih =>
    intro l2 h
    rw [List.cons_append, List.takeWhile_cons, if_pos (h y (List.mem_cons_self _ _)),
      ih l2 (fun x hx => h x (List.mem_cons_of_mem _ hx)), List.cons_append]

theorem dropWhile_append_all (p : Char → Bool) :
    ∀ (l1 l2 : List Char), (∀ x ∈ l1, p x = true) →
      (l1 ++ l2).dropWhile p = l2.dropWhile p := by
  intro l1
  induction l1 with
  | nil => intro l2 _; rfl
  | cons y ys ih =>
    intro l2 h
    rw [List.cons_append, List.dropWhile_cons, if_pos (h y (List.mem_cons_self _ _)),
      ih l2 (fun x hx => h x (List.mem_cons_of_mem _ hx))]

theorem takeWhile_head_false (p : Char → Bool) (l : List Char)
    (h : ∀ c, l.head? = some c → p c = false) : l.takeWhile p = [] := by
  cases l with
  | nil => rfl
  | cons y ys =>
    rw [List.takeWhile_cons, if_neg (by rw [h y rfl]; simp)]

theorem dropWhile_head_false (p : Char → Bool) (l : List Char)
    (h : ∀ c, l.head? = some c → p c = false) : l.dropWhile p = l := by
  cases l with
  | nil => rfl
  | cons y ys =>
    rw [List.dropWhile_cons, if_neg (by rw [h y rfl]; simp)]

theorem parse_wf : ∀ (n : ℕ) (t : List Char), t.length ≤ n → ∀ flag : Bool,
    (flag = true → ∀ c, t.head? = some c → isVS c = false) →
    itemsWF flag (parseItems t) := by
  intro n
  induction n with
  | zero =>
    intro t ht flag _
    rw [List.length_eq_zero.mp (Nat.le_zero.mp ht), parseItems]
    cases flag <;> exact trivial
  | succ n ih =>
    intro t ht flag hflag
    match t with
    | [] =>
      rw [parseItems]
      cases flag <;> exact trivial
    | c :: rest =>
      have hrl : rest.length ≤ n := by
        simp only [List.length_cons] at ht; omega
      by_cases hb : get_char_type c = CType.base
      · rw [parseItems, if_pos hb, itemsWF_clus]
        refine ⟨hb, fun m hm => mem_takeWhile_true isVS rest m hm, ?_⟩
        exact ih (rest.dropWhile isVS)
          (le_trans (List.dropWhile_sublist isVS).length_le hrl) true
          (fun _ d hd => head_dropWhile_not isVS rest d hd)
      · rw [parseItems, if_neg hb, itemsWF_lone]
        exact ⟨hb, fun hf => hflag hf c rfl,
          ih rest hrl false (fun hf => absurd hf (by simp))⟩

theorem render_parse_sub : ∀ (n : ℕ) (t : List Char), t.length ≤ n →
    ∀ x ∈ renderItems (parseItems t), x ∈ t := by
  intro n
  induction n with
  | zero =>
    intro t ht x hx
    rw [List.length_eq_zero.mp (Nat.le_zero.mp ht)] at hx ⊢
    exact absurd hx (by simp [parseItems, renderItems])
  | succ n ih =>
    intro t ht x hx
    match t with
    | [] => exact absurd hx (by simp [parseItems, renderItems])
    | c :: rest =>
      have hrl : rest.length ≤ n := by
        simp only [List.length_cons] at ht; omega
      by_cases hb : get_char_type c = CType.base
      · rw [parseItems, if_pos hb, renderItems_cons, renderItem_clus,
          List.cons_append] at hx
        rcases List.mem_cons.mp hx with rfl | hx2
        · exact List.mem_cons_self _ _
        · rcases List.mem_append.mp hx2 with hx3 | hx4
          · exact List.mem_cons_of_mem _
              ((List.takeWhile_sublist isVS).subset ((csort_mem _ x).mp hx3))
          · exact List.mem_cons_of_mem _
              ((List.dropWhile_sublist isVS).subset
                (ih (rest.dropWhile isVS)
                  (le_trans (List.dropWhile_sublist isVS).length_le hrl) x hx4))
      · rw [parseItems, if_neg hb, renderItems_cons] at hx
        rcases List.mem_cons.mp hx with rfl | hx2
        · exact List.mem_cons_self _ _
        · exact List.mem_cons_of_mem _ (ih rest hrl x hx2)

theorem headVS_false_render : ∀ (items : List NItem), itemsWF true items →
    ∀ c, (renderItems items).head? = some c → isVS c = false := by
  intro items h c hc
  cases items with
  | nil => exact absurd hc (by simp [renderItems])
  | cons it rest =>
    cases it with
    | clus b ms =>
      rw [itemsWF_clus] at h
      rw [renderItems_cons, renderItem_clus, List.cons_append] at hc
      have hbc : b = c := Option.some.inj hc
      rw [← hbc]
      exact isVS_false_of_type_base b h.1
    | lone d =>
      rw [itemsWF_lone] at h
      rw [renderItems_cons] at hc
      have hdc : d = c := Option.some.inj hc
      rw [← hdc]
      exact h.2.1 rfl

theorem parse_render : ∀ (items : List NItem) (flag : Bool), itemsWF flag items →
    parseItems (renderItems items) = items.map sortItem := by
  intro items
  induction items with
  | nil =>
    intro flag _
    rw [show renderItems [] = ([] : List Char) from rfl, parseItems]
    rfl
  | cons it rest ih =>
    intro flag h
    cases it with
    | clus b ms =>
      rw [itemsWF_clus] at h
      obtain ⟨hb, hms, hrest⟩ := h
      rw [renderItems_cons, renderItem_clus, List.cons_append, parseItems, if_pos hb]
      have hAll : ∀ x ∈ csort ms, isVS x = true :=
        fun x hx => hms x ((csort_mem ms x).mp hx)
      have hHead : ∀ c, (renderItems rest).head? = some c → isVS c = false :=
        headVS_false_render rest hrest
      rw [takeWhile_append_all isVS (csort ms) (renderItems rest) hAll,
        takeWhile_head_false isVS (renderItems rest) hHead,
        dropWhile_append_all isVS (csort ms) (renderItems rest) hAll,
        dropWhile_head_false isVS (renderItems rest) hHead,
        List.append_nil, ih true hrest]
      rfl
    | lone c =>
      rw [itemsWF_lone] at h
      rw [renderItems_cons]
      show parseItems (c :: renderItems rest) = _
      rw [parseItems, if_neg h.1, ih false h.2.2]
      rfl

theorem renderItem_sortItem (it : NItem) :
    renderItem (sortItem it) = renderItem it := by
  cases it with
  | clus b ms => rw [sortItem, renderItem_clus, renderItem_clus, csort_idem]
  | lone c => rfl

theorem renderItems_map_sortItem : ∀ items : List NItem,
    renderItems (items.map sortItem) = renderItems items := by
  intro items
  induction items with
  | nil => rfl
  | cons it rest ih =>
    rw [List.map_cons, renderItems_cons, renderItems_cons, renderItem_sortItem, ih]

theorem normalize_eq_render (s : List Char) (hg : goodE s) :
    normalize s = renderItems (parseItems s) := by
  have hne : ∀ c ∈ s, c ≠ Char.ofNat 0x17C1 := by
    intro c hc heq
    exact (hg c hc).2 (by rw [heq]; decide)
  have hcg : ∀ c ∈ s, get_char_type c ≠ CType.coengT :=
    fun c hc => charType_ne_coengT c (hg c hc).1
  show (norm_go (replace2 (Char.ofNat 0x17C1) (Char.ofNat 0x17B6) (Char.ofNat 0x17C4)
      (replace2 (Char.ofNat 0x17C1) (Char.ofNat 0x17B8) (Char.ofNat 0x17BE) s))
      [] []).flatten
    = renderItems (parseItems s)
  rw [replace2_no_op _ _ _ s.length s le_rfl hne,
    replace2_no_op _ _ _ s.length s le_rfl hne,
    (norm_go_parse s hcg).1 [], List.nil_append]
  rfl

theorem mem_normalize_sub (s : List Char) (hg : goodE s) :
    ∀ x ∈ normalize s, x ∈ s := by
  rw [normalize_eq_render s hg]
  exact fun x hx => render_parse_sub s.length s le_rfl x hx

/-- Claim C3 (amended): on every input that contains neither U+17D2
(COENG) nor U+17C1 (the split vowel E), normalize is idempotent:
normalizing twice gives the same string as normalizing once.  (The
unrestricted claim is refuted by the separate counterexample: the stable
reorder can create a new U+17C1 adjacency that only the second pass
merges, and a stray COENG can capture the next cluster on re-parsing.) -/
theorem c3_normalize_idempotent_no_coeng_no_e (s : List Char) (hg : goodE s) :
    normalize (normalize s) = normalize s := by
  have hg2 : goodE (normalize s) :=
    fun c hc => hg c (mem_normalize_sub s hg c hc)
  have hwf : itemsWF false (parseItems s) :=
    parse_wf s.length s le_rfl false (fun hf => absurd hf (by simp))
  rw [normalize_eq_render (normalize s) hg2, normalize_eq_render s hg,
    parse_render (parseItems s) false hwf, renderItems_map_sortItem]

/-- Claim C3 witness: the amended idempotence theorem applied to the
concrete COENG-free, E-free cluster KA + NIKAHIT + AA (which normalize
actively reorders to KA + AA + NIKAHIT). -/
theorem c3_normalize_idempotent_witness :
    goodE [Char.ofNat 0x1780, Char.ofNat 0x17C6, Char.ofNat 0x17B6] ∧
      normalize (normalize [Char.ofNat 0x1780, Char.ofNat 0x17C6, Char.ofNat 0x17B6]) =
        normalize [Char.ofNat 0x1780, Char.ofNat 0x17C6, Char.ofNat 0x17B6] :=
  ⟨by unfold goodE; decide, c3_normalize_idempotent_no_coeng_no_e _ (by unfold goodE; decide)⟩

end KhmerSeg
